import Mathlib

/-!
Verification of the CheckMerge core against its specification.

This file contains a shallow embedding, in Lean 4, of the parts of the
CheckMerge source (a Python program) that the specification's claims are
about, together with theorems settling each claim.

Modelling conventions used throughout:
* Python `int` is `Int` (arbitrary precision in both languages); counts and
  sizes that are provably nonnegative are `Nat`.
* Fallible Python code (code that can raise) is embedded as `Except String`
  values; the error string names the Python exception that is raised.
* Python string comparison is lexicographic on code points, which coincides
  with Lean's `List Char` lexicographic order on `String.data`.
* Python object identity for IR nodes is modelled by giving every node an
  `id` field; a well-formedness predicate (all ids distinct) mirrors the
  fact that distinct live Python objects are never identical.
-/

namespace CheckMerge

/-! ## Embedding of `checkmerge/ir/metadata.py` -/

namespace Metadata

/-- `Location` from `metadata.py`: a `(file, line, column)` triple.
The file may be the empty string when unknown. -/
structure Location where
  file : String
  line : Int
  column : Int
  deriving DecidableEq, Repr

/-- Python string `<`: lexicographic comparison on code points.  This is the
same order as Lean's `String` instance, evaluated to `Bool`. -/
def pyStrLt (a b : String) : Bool := decide (a < b)

/-- `Location.as_tuple` comparison `<`: Python tuple comparison on
`(file, line, column)` (first differing component decides). -/
def locTupleLt (a b : Location) : Bool :=
  if a.file ≠ b.file then pyStrLt a.file b.file
  else if a.line ≠ b.line then a.line < b.line
  else if a.column ≠ b.column then a.column < b.column
  else false

/-- `Location.as_tuple` comparison `<=` (Python tuple comparison). -/
def locTupleLe (a b : Location) : Bool :=
  if a.file ≠ b.file then pyStrLt a.file b.file
  else if a.line ≠ b.line then a.line < b.line
  else if a.column ≠ b.column then a.column < b.column
  else true

/-- `Location.coordinates` comparison `<`: Python tuple comparison on
`(line, column)`. -/
def coordLt (a b : Location) : Bool :=
  if a.line ≠ b.line then a.line < b.line
  else if a.column ≠ b.column then a.column < b.column
  else false

/-- `Location.coordinates` comparison `<=`. -/
def coordLe (a b : Location) : Bool :=
  if a.line ≠ b.line then a.line < b.line
  else if a.column ≠ b.column then a.column < b.column
  else true

/-- `Location.__lt__`: when both files are non-empty (truthy) compare the
full tuples, otherwise compare only the coordinates. -/
def locLt (a b : Location) : Bool :=
  if a.file ≠ "" ∧ b.file ≠ "" then locTupleLt a b else coordLt a b

/-- `Location.__le__`: when both files are non-empty compare the full
tuples, otherwise compare only the coordinates. -/
def locLe (a b : Location) : Bool :=
  if a.file ≠ "" ∧ b.file ≠ "" then locTupleLe a b else coordLe a b

/-- `Range` from `metadata.py`: a half-open range `[start, end)` of
locations.  The constructor asserts `start.file == end.file`; the assertion
is recorded as the predicate `Range.wf` below. -/
structure Range where
  start : Location
  stop : Location
  deriving DecidableEq, Repr

/-- The `assert start.file == end.file` in `Range.__init__`. -/
def Range.wf (r : Range) : Prop := r.start.file = r.stop.file

/-- `Range.overlaps`: literal translation of
`other.start <= self.start < other.end or other.start < self.end <= other.end`
(Python chained comparisons unfold to conjunctions). -/
def overlaps (self other : Range) : Bool :=
  (locLe other.start self.start && locLt self.start other.stop) ||
    (locLt other.start self.stop && locLe self.stop other.stop)

/-- `Range.contains` for a `Range` argument:
`self.start <= other.start and other.end <= self.end`. -/
def containsRange (self other : Range) : Bool :=
  locLe self.start other.start && locLe other.stop self.stop

/-- The key of `sorted(ranges, key=lambda r: r.start)`: a stable ascending
sort comparing keys with `Location.__lt__`.  An element stays before a later
one unless the later one's key is strictly smaller. -/
def sortRanges (ranges : List Range) : List Range :=
  ranges.mergeSort (fun a b => !(locLt b.start a.start))

/-- `Range.compress`.  The source computes
`sorted_ranges = sorted(ranges, key=...)` (a list) and then evaluates
`next(sorted_ranges)` whenever `ranges` is non-empty.  `next()` applied to a
list raises `TypeError: 'list' object is not an iterator`, so the merge loop
that follows is unreachable for non-empty input; only the empty input
returns (the empty list). -/
def compress (ranges : List Range) : Except String (List Range) :=
  let _sortedRanges := sortRanges ranges
  if ranges.length > 0 then
    .error ("TypeError: list object is not an iterator")
  else
    .ok []

/-- Python `str.split(sep)` for a single-character separator, on character
lists: splitting the empty string yields `[""]`, and `n` separators yield
`n+1` (possibly empty) segments. -/
def splitCharList (sep : Char) : List Char → List (List Char)
  | [] => [[]]
  | c :: cs =>
    let rest := splitCharList sep cs
    if c = sep then [] :: rest
    else match rest with
      | [] => [[c]]
      | seg :: segs => (c :: seg) :: segs

/-- Python `value.split(':')` (single-character separator) on strings. -/
def pySplit (sep : Char) (s : String) : List String :=
  (splitCharList sep s.data).map (fun cs => String.mk cs)

/-- Whitespace stripped by Python `int()` around a numeral (ASCII subset). -/
def isPySpace (c : Char) : Bool :=
  c = ' ' || c = '\t' || c = '\n' || c = '\x0d' || c = '\x0c' || c = '\x0b'

/-- Decimal value of a digit string. -/
def digitsToNat (cs : List Char) : Nat :=
  cs.foldl (fun n c => 10 * n + (c.toNat - 48)) 0

/-- Python `int(s)`: strip surrounding whitespace, optional sign, then a
non-empty run of decimal digits; anything else raises `ValueError`.
(Python additionally allows underscores between digits and non-ASCII
digits; those inputs never occur in the claims settled here.) -/
def pyInt (s : String) : Except String Int :=
  let cs := s.data.dropWhile isPySpace
  let cs := (cs.reverse.dropWhile isPySpace).reverse
  let (sign, digits) : Int × List Char :=
    match cs with
    | '-' :: rest => (-1, rest)
    | '+' :: rest => (1, rest)
    | rest => (1, rest)
  if digits ≠ [] ∧ digits.all Char.isDigit then
    .ok (sign * (digitsToNat digits : Int))
  else
    .error ("ValueError: invalid literal for int with base 10: " ++ s)

/-- `Location.parse`: the empty string parses to `None`; a non-empty string
must consist of exactly three colon-separated segments, otherwise
`ValueError` is raised; the line and column segments are converted with
`int()`. -/
def parse (value : String) : Except String (Option Location) :=
  if value.length = 0 then .ok none
  else
    match pySplit ':' value with
    | [file, line, column] => do
      let l ← pyInt line
      let c ← pyInt column
      .ok (some ⟨file, l, c⟩)
    | _ => .error ("ValueError: The location string " ++ value ++ " is invalid.")

end Metadata

/-! ## Embedding of `checkmerge/util/collections.py` (`PriorityList`)

The Python class stores `(key(obj), obj)` tuples in a `heapq` binary heap.
The heap is modelled by its contract: the internal list is kept sorted
ascending with respect to Python tuple comparison, so `data[0]` is the heap
root (a minimum) and `heappop` removes it.  Entries that compare equal keep
insertion order; `heapq` leaves their relative order unspecified, and no
claim settled here depends on the order among entries that compare equal.

Python tuple comparison finds the first component where `==` fails and
applies the comparison operator there; `==` on the stored objects is
object identity for IR nodes (no `__eq__` override), so the element
equality test is a parameter `aEq`, as is the element order `aLe`
(`Node.__le__` compares heights). -/

namespace Collections

variable {α : Type}

/-- Python `==` on objects whose equality is by value (ints, strings); for
IR nodes object identity is used instead (see the Gumtree section). -/
def eqB [DecidableEq α] (a b : α) : Bool := decide (a = b)

/-- Python `<=` on `(key, obj)` tuples: compare keys when they differ
(`int` comparison), otherwise compare the objects when they differ,
otherwise the tuples are equal. -/
def entryLe (aEq aLe : α → α → Bool) (x y : Int × α) : Bool :=
  if x.1 ≠ y.1 then decide (x.1 < y.1)
  else if !(aEq x.2 y.2) then aLe x.2 y.2
  else true

/-- `heapq.heappush`, modelled on the sorted list: insert the new entry
after every entry that compares `<=` to it. -/
def heapInsert (aEq aLe : α → α → Bool) (e : Int × α) :
    List (Int × α) → List (Int × α)
  | [] => [e]
  | x :: xs =>
    if entryLe aEq aLe x e then x :: heapInsert aEq aLe e xs
    else e :: x :: xs

/-- `PriorityList.push`: push `(key(obj), obj)` onto the heap. -/
def push (key : α → Int) (aEq aLe : α → α → Bool) (data : List (Int × α))
    (obj : α) : List (Int × α) :=
  heapInsert aEq aLe (key obj, obj) data

/-- `PriorityList.open`: push each object of an iterable. -/
def openAll (key : α → Int) (aEq aLe : α → α → Bool)
    (data : List (Int × α)) (objs : List α) : List (Int × α) :=
  objs.foldl (push key aEq aLe) data

/-- Building a `PriorityList` by pushing a list of objects one by one. -/
def pushAll (key : α → Int) (aEq aLe : α → α → Bool) (objs : List α) :
    List (Int × α) :=
  openAll key aEq aLe [] objs

/-- The loop of `PriorityList.pop_many`: keep popping while the heap root
compares `<=` to the first popped entry `min` (`self.data[0] <= items[0]`).
Returns the extra popped entries and the remaining heap. -/
def popManyLoop (aEq aLe : α → α → Bool) (min : Int × α) :
    List (Int × α) → List (Int × α) × List (Int × α)
  | [] => ([], [])
  | e :: rest =>
    if entryLe aEq aLe e min then
      let (taken, left) := popManyLoop aEq aLe min rest
      (e :: taken, left)
    else ([], e :: rest)

/-- `PriorityList.pop_many`: pop the minimum, then every further entry that
compares `<=` to it; raises `IndexError` on an empty list.  Returns the
popped objects (tuples unwrapped) and the remaining heap. -/
def popMany (aEq aLe : α → α → Bool) :
    List (Int × α) → Except String (List α × List (Int × α))
  | [] => .error ("IndexError: index out of range")
  | e :: rest =>
    let (taken, left) := popManyLoop aEq aLe e rest
    .ok ((e :: taken).map Prod.snd, left)

/-- `PriorityList.peek`: the heap root, `IndexError` when empty. -/
def peek : List (Int × α) → Except String α
  | [] => .error ("IndexError: list index out of range")
  | e :: _ => .ok e.2

/-- `remove_subsets` from `collections.py`: keep only the sets that are not
a strict-or-equal subset of a *different* set in the collection (identical
duplicated sets are all dropped, since each is a subset of the other). -/
def removeSubsets (sets : List (Finset ℕ)) : List (Finset ℕ) :=
  sets.filter (fun s => !(sets.any (fun x => s ≠ x && s ⊆ x)))

end Collections

/-! ## Embedding of `checkmerge/ir/tree.py` (value-tree part)

`Node` carries an `id` modelling Python object identity: the runtime never
has two distinct live nodes that are `is`-identical, which corresponds to
well-formedness predicates stating that all ids in play are distinct.
Structural fields are `type`, `label` and the ordered `children`
(`ref`, `source_range` and metadata play no role in the claims). -/

namespace Tree

inductive Node : Type where
  | node (id : Nat) (typ : String) (label : Option String)
      (children : List Node) : Node

/-- Python object identity between nodes (`==`/`in` on nodes fall back to
identity since `Node` defines no `__eq__`). -/
def Node.pid : Node → Nat
  | .node i _ _ _ => i

def Node.typ : Node → String
  | .node _ t _ _ => t

def Node.label : Node → Option String
  | .node _ _ l _ => l

def Node.children : Node → List Node
  | .node _ _ _ cs => cs

mutual
/-- `Node.height`: 1 for a leaf, otherwise 1 + the maximum child height. -/
def Node.height : Node → Nat
  | .node _ _ _ cs => heightList cs + 1

/-- Maximum height of a list of nodes (0 for the empty list, making the
wrapper agree with the source's leaf case `height = 1`). -/
def heightList : List Node → Nat
  | [] => 0
  | c :: cs => Nat.max c.height (heightList cs)
end

mutual
/-- Number of nodes of a subtree (used for termination measures and for
`len(list(t.subtree()))`). -/
def Node.size : Node → Nat
  | .node _ _ _ cs => sizeList cs + 1

def sizeList : List Node → Nat
  | [] => 0
  | c :: cs => c.size + sizeList cs
end

mutual
/-- `Node.subtree()` / `_top_down_subtree`: pre-order traversal, the node
itself first. -/
def Node.subtree : Node → List Node
  | .node i t l cs => .node i t l cs :: subtreeList cs

def subtreeList : List Node → List Node
  | [] => []
  | c :: cs => c.subtree ++ subtreeList cs
end

/-- `Node.descendants`: the subtree without the node itself. -/
def Node.descendants (n : Node) : List Node := subtreeList n.children

/-- Rendering of the `label` field inside the Python f-string
`f"{{{self.type}@{self.label}|{children}}}"`: `None` renders as `"None"`. -/
def labelStr : Option String → String
  | none => "None"
  | some s => s

mutual
/-- `Node._get_hash_str`: the recursive canonical string
`"{type@label|child-hash-strings}"`. -/
def Node.hashStr : Node → String
  | .node _ t l cs =>
    "\x7b" ++ t ++ "@" ++ labelStr l ++ "|" ++ hashStrList cs ++ "\x7d"

/-- `''.join(map(Node._get_hash_str, children))`. -/
def hashStrList : List Node → String
  | [] => ""
  | c :: cs => c.hashStr ++ hashStrList cs
end

/-- `Node.hash` feeds `hashStr` into the BLAKE2b digest and compares only
for equality.  The digest is modelled as the identity on the canonical
string (i.e. as a collision-free function of its input), so `hash`-equality
is `hashStr`-equality. -/
def Node.hash (n : Node) : String := n.hashStr

mutual
/-- Tree isomorphism under `(type, label)` with children compared in order
(the notion of isomorphism named by the specification; ids, i.e. object
identities, are ignored). -/
def isoTL : Node → Node → Bool
  | .node _ t1 l1 cs1, .node _ t2 l2 cs2 =>
    t1 = t2 && l1 = l2 && isoTLList cs1 cs2

def isoTLList : List Node → List Node → Bool
  | [], [] => true
  | c :: cs, d :: ds => isoTL c d && isoTLList cs ds
  | _, _ => false
end

mutual
/-- Tree isomorphism under `(type, rendered label)`: like `isoTL` but
comparing the labels as the hash string renders them (`None` and the
literal string `"None"` coincide). -/
def isoR : Node → Node → Bool
  | .node _ t1 l1 cs1, .node _ t2 l2 cs2 =>
    t1 = t2 && labelStr l1 = labelStr l2 && isoRList cs1 cs2

def isoRList : List Node → List Node → Bool
  | [], [] => true
  | c :: cs, d :: ds => isoR c d && isoRList cs ds
  | _, _ => false
end

/-- A string free of the four delimiter characters of the hash-string
format. -/
def cleanStr (s : String) : Bool :=
  s.data.all (fun c => !(c = '\x7b' || c = '\x7d' || c = '@' || c = '|'))

/-- The hash string as a character list (for reasoning about the encoding). -/
def encL (n : Node) : List Char := n.hashStr.data

/-- The concatenated child hash strings as a character list. -/
def encLList (cs : List Node) : List Char := (hashStrList cs).data

/-- Brace balance of a character list: `{` counts +1, `}` counts −1. -/
def bal : List Char → Int
  | [] => 0
  | c :: cs =>
    (if c = '\x7b' then 1 else if c = '\x7d' then (-1 : Int) else 0) + bal cs

mutual
/-- A tree whose types and rendered labels are all delimiter-free. -/
def Node.clean : Node → Bool
  | .node _ t l cs => cleanStr t && cleanStr (labelStr l) && cleanList cs

def cleanList : List Node → Bool
  | [] => true
  | c :: cs => c.clean && cleanList cs
end

end Tree

/-! ## Embedding of the dependency-graph part of `checkmerge/ir/tree.py`

Dependency edges form a general graph over nodes (cycles allowed), and the
traversals operate on object identity, so this part is embedded as a graph
over node ids: `deps` gives the outgoing `Dependency` list of a node,
`children` the tree children, `memOverride` the `is_memory_operation`
constructor flag and `mapping` the post-diff mapping tag.  Reverse
dependencies are derived, mirroring `add_dependencies` which installs a
reverse edge on the target for every edge added. -/

namespace Graph

/-- `DependencyType` from `tree.py`. -/
inductive DependencyType : Type where
  | control | flow | anti | output | input | reference | argument | other
  deriving DecidableEq, Repr

/-- `DependencyType.is_memory_dependency()`: membership in
`{FLOW, ANTI, INPUT, OUTPUT}`. -/
def DependencyType.isMemoryDependency : DependencyType → Bool
  | .flow => true
  | .anti => true
  | .input => true
  | .output => true
  | _ => false

structure DepGraph where
  /-- The universe of node ids. -/
  nodes : List Nat
  /-- Outgoing dependencies of each node: `(target, kind)` pairs. -/
  deps : Nat → List (Nat × DependencyType)
  /-- Tree children of each node. -/
  children : Nat → List Nat
  /-- The `is_memory_operation` constructor override. -/
  memOverride : Nat → Option Bool
  /-- The post-diff `mapping` tag. -/
  mapping : Nat → Option Nat

/-- Reverse dependencies, as maintained by `add_dependencies`: `(m, t)` is
a reverse dependency of `n` exactly when `(n, t)` is a dependency of `m`. -/
def DepGraph.rdeps (g : DepGraph) (n : Nat) : List (Nat × DependencyType) :=
  (g.nodes.map (fun m =>
    (g.deps m).filterMap (fun p => if p.1 = n then some (m, p.2) else none))).flatten

/-- `Node.is_memory_operation`: the override when set, otherwise whether
any edge in `deps ∪ rdeps` is a memory dependency. -/
def DepGraph.isMemoryOperation (g : DepGraph) (n : Nat) : Bool :=
  match g.memOverride n with
  | some b => b
  | none => (g.deps n ++ g.rdeps n).any (fun p => p.2.isMemoryDependency)

/-- Pre-order descendants via `children`, with explicit recursion depth
(parent/child links are structurally acyclic in the source, so any depth
of at least the number of nodes is exhaustive). -/
def descendantsFuel (g : DepGraph) : Nat → Nat → List Nat
  | 0, _ => []
  | fuel + 1, n =>
    (g.children n).foldr (fun c acc => c :: descendantsFuel g fuel c ++ acc) []

/-- `Node.descendants` over the graph. -/
def DepGraph.descendantsD (g : DepGraph) (n : Nat) : List Nat :=
  descendantsFuel g g.nodes.length n

mutual
/-- `Node.recursive_dependencies` (the generator), with explicit fuel.
The source appends every visited node to the shared mutable `exclude`
list but never tests membership in it, so the traversal follows cycles
forever; `none` means the computation did not finish within `fuel` nested
calls (and, as proved below, no amount of fuel finishes on a cycle).
Returns the yielded nodes and the final `exclude` list. -/
def recDeps (g : DepGraph) (limit : Option (Nat × DependencyType → Bool))
    (rmo : Bool) :
    Nat → Nat → List Nat → Option (List Nat × List Nat)
  | 0, _, _ => none
  | fuel + 1, n, exclude =>
    let dependencies :=
      match limit with
      | none => g.deps n
      | some l => (g.deps n).filter l
    match recDepsLoop g limit rmo fuel (dependencies.map Prod.fst) exclude with
    | none => none
    | some (ys, ex) =>
      if rmo && g.isMemoryOperation n then
        match recDepsLoop g limit rmo fuel (g.descendantsD n) ex with
        | none => none
        | some (ys', ex') => some (ys ++ ys', ex')
      else some (ys, ex)

/-- The `for dependency in dependencies` loop body: append to `exclude`,
yield the node, then yield from the recursive call. -/
def recDepsLoop (g : DepGraph) (limit : Option (Nat × DependencyType → Bool))
    (rmo : Bool) :
    Nat → List Nat → List Nat → Option (List Nat × List Nat)
  | _, [], exclude => some ([], exclude)
  | fuel, m :: ms, exclude =>
    match recDeps g limit rmo fuel m (exclude ++ [m]) with
    | none => none
    | some (ys, ex) =>
      match recDepsLoop g limit rmo fuel ms ex with
      | none => none
      | some (ys', ex') => some (m :: (ys ++ ys'), ex')
end

end Graph

/-! ## Embedding of `checkmerge/diff/base.py` (the part the analyses use) -/

namespace Diff

/-- `EditOperation` from `diff/base.py`. -/
inductive EditOperation : Type where
  | insert | delete | rename
  deriving DecidableEq, Repr

/-- `Change` from `diff/base.py` (nodes as ids). -/
structure Change where
  base : Option Nat
  other : Option Nat
  op : EditOperation
  deriving DecidableEq, Repr

end Diff

/-! ## Embedding of `checkmerge/analysis/__init__.py` and
`checkmerge/analysis/reference.py` -/

namespace Analysis

open Diff

/-- An analysis-result class, reduced to its class-level constants. -/
structure ConflictClass where
  key : String
  severity : ℚ
  deriving DecidableEq, Repr

/-- `MemoryDependenceConflict` (severity 1.0). -/
def MemoryDependenceConflict : ConflictClass := ⟨"memory_dependence", 1⟩

/-- `RenamedReferenceConflict` (severity 2.0). -/
def RenamedReferenceConflict : ConflictClass := ⟨"renamed_reference", 2⟩

/-- `DeletedReferenceConflict` (severity 1.5). -/
def DeletedReferenceConflict : ConflictClass := ⟨"deleted_reference", 3 / 2⟩

/-- Keyword binding of `AnalysisResult.__init__(self, *conflicting_changes,
analysis)` for a call site that passes only keyword arguments: the
var-positional `*conflicting_changes` absorbs no keywords and there is no
`**kwargs`, so any keyword other than `analysis` raises `TypeError`. -/
def analysisResultInitKwargs (kwargs : List String) : Except String Unit :=
  match kwargs.find? (fun k => k ≠ "analysis") with
  | some k => .error ("TypeError: init got an unexpected keyword argument " ++ k)
  | none =>
    if kwargs.contains ("analysis") then .ok ()
    else .error ("TypeError: init missing required argument analysis")

/-- `ReferenceAnalysis.get_conflict`.  Partitions the given nodes into
changed nodes (via `changes_by_node`), loose base-side nodes and loose
other-side nodes; when the change set is non-empty and the operation is
Rename or Delete it constructs the conflict object — passing `changes=`,
`base_nodes=`, `other_nodes=` and `analysis=` as keywords to
`AnalysisResult.__init__`, whose binding is modelled above.  Returns the
conflict classes of the yielded results. -/
def getConflict (changesByNode : Nat → Option Change) (rootOf : Nat → Nat)
    (base other : Nat) (op : EditOperation) (nodes : List Nat) :
    Except String (List ConflictClass) :=
  let changes := (nodes.filterMap changesByNode).dedup
  let _baseNodes :=
    nodes.filter (fun n => (changesByNode n).isNone && rootOf n = base)
  let _otherNodes :=
    nodes.filter (fun n =>
      (changesByNode n).isNone && rootOf n ≠ base && rootOf n = other)
  if changes ≠ [] then
    if op = .rename then
      match analysisResultInitKwargs
          ["changes", "base_nodes", "other_nodes", "analysis"] with
      | .error e => .error e
      | .ok _ => .ok [RenamedReferenceConflict]
    else if op = .delete then
      match analysisResultInitKwargs
          ["changes", "base_nodes", "other_nodes", "analysis"] with
      | .error e => .error e
      | .ok _ => .ok [DeletedReferenceConflict]
    else .ok []
  else .ok []

/-- A Python `dict` as an association list; later assignments win. -/
def dictGet (d : List (Nat × Nat)) (k dflt : Nat) : Nat :=
  match d.find? (fun p => p.1 = k) with
  | some p => p.2
  | none => dflt

/-- `d[k] = v`. -/
def dictSet (d : List (Nat × Nat)) (k v : Nat) : List (Nat × Nat) :=
  (k, v) :: d.filter (fun p => p.1 ≠ k)

/-- `s1.issubset(s2)` for node sets represented as duplicate-free lists
(Python sets of nodes; iteration order is unspecified in Python and no
claim below depends on it). -/
def listSubset (a b : List Nat) : Bool := a.all (fun x => b.contains x)

/-- One step of the replacement-map construction in `optimize_change_sets`:
for nodes `c1, c2`, if `c1 in c2.descendants` set
`replaces[c1] = replaces.get(c2, c2)`, symmetrically otherwise.
`descMem a b` models `a in b.descendants`. -/
def replacesStep (descMem : Nat → Nat → Bool) (d : List (Nat × Nat))
    (c1 c2 : Nat) : List (Nat × Nat) :=
  if descMem c1 c2 then dictSet d c1 (dictGet d c2 c2)
  else if descMem c2 c1 then dictSet d c2 (dictGet d c1 c1)
  else d

/-- The full replacement map: iterate over all ordered pairs of change
sets, and inside over all ordered pairs of their elements. -/
def buildReplaces (descMem : Nat → Nat → Bool) (css : List (List Nat)) :
    List (Nat × Nat) :=
  css.foldl (fun d cs1 =>
    css.foldl (fun d cs2 =>
      cs1.foldl (fun d c1 =>
        cs2.foldl (fun d c2 =>
          replacesStep descMem d c1 c2) d) d) d) []

/-- The subset-removal loop of `optimize_change_sets`: repeatedly pop the
first set and yield it unless one of the *remaining* sets is a superset. -/
def subsetLoop : List (List Nat) → List (List Nat)
  | [] => []
  | cs1 :: rest =>
    if rest.any (fun cs2 => listSubset cs1 cs2) then subsetLoop rest
    else cs1 :: subsetLoop rest

/-- `optimize_change_sets`: descendant absorption via the replacement map
(the set comprehension `{replaces.get(c, c) for c in cs}` deduplicates),
then the subset-removal loop. -/
def optimizeChangeSets (descMem : Nat → Nat → Bool)
    (css : List (List Nat)) : List (List Nat) :=
  let replaces := buildReplaces descMem css
  let replaced :=
    css.map (fun cs => (cs.map (fun c => dictGet replaces c c)).dedup)
  subsetLoop replaced

end Analysis

/-! ## Embedding of `checkmerge/analysis/dependence.py` -/

namespace Dependence

open Graph

/-- `DependenceAnalysis.is_memory_dependency`: the body is
`return d.type.is_memory_dependency` — it returns the *bound method
object* instead of calling it.  Used as a `filter` predicate, a bound
method is always truthy, so every dependency passes the filter. -/
def isMemoryDependencyTruthy (_d : Nat × DependencyType) : Bool := true

/-- The `while` loop of `DependenceAnalysis.recursive_memory_dependencies`
with explicit fuel (`none` = fuel exhausted before the worklist emptied;
the loop always terminates because revisited nodes are skipped). -/
def recMemDepsLoop (g : DepGraph) (reverse : Bool) :
    Nat → List Nat → List Nat → Option (List Nat)
  | 0, worklist, result => if worklist.isEmpty then some result else none
  | fuel + 1, worklist, result =>
    match worklist with
    | [] => some result
    | n :: rest =>
      if n ∈ result then recMemDepsLoop g reverse fuel rest result
      else
        let dependencies := if reverse then g.rdeps n else g.deps n
        let fromDeps :=
          (dependencies.filter isMemoryDependencyTruthy).map Prod.fst
        let fromChildren := if g.isMemoryOperation n then g.descendantsD n else []
        recMemDepsLoop g reverse fuel (rest ++ fromDeps ++ fromChildren)
          (result ++ [n])

/-- A fuel bound sufficient for every terminating run on `g`: one step per
worklist entry, where each of the at most `|nodes|` processed nodes adds at
most its dependency and descendant counts. -/
def depsFuel (g : DepGraph) : Nat :=
  1 + g.nodes.length +
    g.nodes.foldl (fun a n =>
      a + (g.deps n).length + (g.rdeps n).length +
        (g.descendantsD n).length) 0

/-- `DependenceAnalysis.recursive_memory_dependencies`. -/
def recursiveMemoryDependencies (g : DepGraph) (n : Nat) (reverse : Bool) :
    Option (List Nat) :=
  recMemDepsLoop g reverse (depsFuel g) [n] []

/-- `DependenceAnalysis.get_dependencies`: the union of the forward and
reverse closures (a Python set; represented as a deduplicated list whose
order no claim depends on). -/
def getDependencies (g : DepGraph) (n : Nat) : Option (List Nat) := do
  let fwd ← recursiveMemoryDependencies g n false
  let rev ← recursiveMemoryDependencies g n true
  return (fwd ++ rev).dedup

/-- `DependenceAnalysis.get_mapped`: the mapped partners of the nodes that
have one. -/
def getMapped (g : DepGraph) (nodes : List Nat) : List Nat :=
  nodes.filterMap g.mapping

/-- `DependenceAnalysis.get_affected`: map the dependency cone across the
diff mapping, then chain the mapped nodes with each mapped node's own
dependency cone. -/
def getAffected (g : DepGraph) (n : Nat) : Option (List Nat) := do
  let dependencies ← getDependencies g n
  let mapped := getMapped g dependencies
  let mappedCones ← mapped.mapM (getDependencies g)
  return mapped ++ mappedCones.flatten

/-- The affected set as computed in `DependenceAnalysis.__call__`:
`{node}.union(self.get_affected(node))`. -/
def affectedNodes (g : DepGraph) (n : Nat) : Option (List Nat) := do
  let a ← getAffected g n
  return (n :: a).dedup

/-- The affected set as the specification states it (for comparison with
the code's result): `{n}` together with the recursive dependencies reached
via `deps ∪ rdeps` *traversing only memory-kind edges* and expanding
through the children of memory-operation nodes — on the node's own side,
then the image of that set under the diff mapping, then the same cone on
the mapped side. -/
def specConeLoop (g : DepGraph) :
    Nat → List Nat → List Nat → Option (List Nat)
  | 0, worklist, result => if worklist.isEmpty then some result else none
  | fuel + 1, worklist, result =>
    match worklist with
    | [] => some result
    | n :: rest =>
      if n ∈ result then specConeLoop g fuel rest result
      else
        let fromDeps :=
          ((g.deps n ++ g.rdeps n).filter
            (fun p => p.2.isMemoryDependency)).map Prod.fst
        let fromChildren := if g.isMemoryOperation n then g.descendantsD n else []
        specConeLoop g fuel (rest ++ fromDeps ++ fromChildren) (result ++ [n])

/-- The specification's dependency cone of a node. -/
def specCone (g : DepGraph) (n : Nat) : Option (List Nat) :=
  specConeLoop g (depsFuel g) [n] []

/-- The specification's `affected(n)`. -/
def specAffected (g : DepGraph) (n : Nat) : Option (List Nat) := do
  let own ← specCone g n
  let mapped := getMapped g own
  let mappedCones ← mapped.mapM (specCone g)
  return (n :: (own ++ mapped ++ mappedCones.flatten)).dedup

end Dependence

/-! ## Embedding of `checkmerge/diff/gumtree.py` (`GumTreeDiff.top_down`)

The matcher manipulates nodes by object identity (`Node` defines neither
`__eq__` nor `__hash__`), modelled by comparing `pid`s.  The two
`PriorityList`s hold `(0 - height, node)` entries; `Node.__lt__`/`__le__`
compare heights, which is what tuple comparison falls back to on equal
keys.  The mapping `m` is a `bidict`: assigning a value that is already
present under a different key raises `ValueDuplicationError`, assigning to
an existing key overwrites. -/

namespace Gumtree

open Tree Collections

/-- Object identity of nodes. -/
def nodeEq (a b : Node) : Bool := a.pid = b.pid

/-- `Node.__le__`: comparison by height. -/
def nodeLe (a b : Node) : Bool := a.height ≤ b.height

/-- `GumTreeDiff.priority`: `0 - t.height`, so that the tallest subtree is
the smallest key. -/
def priority (t : Node) : Int := 0 - (t.height : Int)

/-- `GumTreeDiff.isomorphic`: subtree-hash equality. -/
def isomorphic (t1 t2 : Node) : Bool := t1.hash = t2.hash

/-- The mapping: an insertion-ordered association list of node pairs. -/
abbrev Mapping := List (Node × Node)

/-- `t1 in m` (bidict key membership, by identity). -/
def keyMem (m : Mapping) (n : Node) : Bool := m.any (fun p => nodeEq p.1 n)

/-- `t2 in m.inv` (bidict value membership, by identity). -/
def valMem (m : Mapping) (n : Node) : Bool := m.any (fun p => nodeEq p.2 n)

/-- `mappings.get(d)` (dict lookup by identity). -/
def mapGet (m : Mapping) (n : Node) : Option Node :=
  (m.find? (fun p => nodeEq p.1 n)).map Prod.snd

/-- `m[k] = v` on a bidict: raises `ValueDuplicationError` when `v` is
already the value of a different key; overwrites an existing key. -/
def bidictSet (m : Mapping) (k v : Node) : Except String Mapping :=
  if m.any (fun p => nodeEq p.2 v && !nodeEq p.1 k) then
    .error ("ValueDuplicationError")
  else
    .ok ((m.filter (fun p => !nodeEq p.1 k)) ++ [(k, v)])

/-- Line 107: `for n1, n2 in zip(t1.subtree(), t2.subtree()): m[n1] = n2`. -/
def zipInsert (m : Mapping) (t1 t2 : Node) : Except String Mapping :=
  (t1.subtree.zip t2.subtree).foldlM (fun m p => bidictSet m p.1 p.2) m

/-- Line 101-102: the ambiguity test — some *other* subtree of `other` is
isomorphic to `t1`, or some other subtree of `base` is isomorphic to `t2`. -/
def existsAmbiguous (base other t1 t2 : Node) : Bool :=
  other.subtree.any (fun tx => isomorphic t1 tx && !nodeEq tx t2) ||
    base.subtree.any (fun tx => isomorphic tx t2 && !nodeEq tx t1)

/-- The loop state: the two priority lists, the candidate list `a` and the
mapping `m`. -/
structure State where
  l1 : List (Int × Node)
  l2 : List (Int × Node)
  a : List (Node × Node)
  m : Mapping

/-- The `while` condition (line 84): both lists non-empty and
`min(l1.peek().height, l2.peek().height) >= min_height`. -/
def loopCond (minHeight : Nat) (st : State) : Bool :=
  match st.l1, st.l2 with
  | e1 :: _, e2 :: _ => minHeight ≤ min e1.2.height e2.2.height
  | _, _ => false

/-- `l.open(t.children)` for every popped `t`. -/
def openChildren (l : List (Int × Node)) (popped : List Node) :
    List (Int × Node) :=
  popped.foldl (fun l t => openAll priority nodeEq nodeLe l t.children) l

/-- Lines 98-108: iterate over the isomorphic pairs of `h1 × h2`; ambiguous
pairs go to the candidate list, unique pairs are mapped wholesale by
zipping the two subtree traversals. -/
def processPairs (base other : Node) (h1 h2 : List Node)
    (a : List (Node × Node)) (m : Mapping) :
    Except String (List (Node × Node) × Mapping) :=
  ((h1.product h2).filter (fun p => isomorphic p.1 p.2)).foldlM
    (fun (acc : List (Node × Node) × Mapping) p => do
      let (a, m) := acc
      if existsAmbiguous base other p.1 p.2 then
        return (a ++ [p], m)
      else
        let m' ← zipInsert m p.1 p.2
        return (a, m'))
    (a, m)

/-- Lines 111-118: reopen the children of the popped subtrees that ended up
neither in the candidate list nor in the mapping. -/
def reopenUnmapped (l : List (Int × Node)) (h : List Node)
    (a : List (Node × Node)) (proj : Node × Node → Node) (m : Mapping)
    (mem : Mapping → Node → Bool) : List (Int × Node) :=
  h.foldl (fun l t =>
    if !(a.any (fun x => nodeEq (proj x) t)) && !(mem m t) then
      openAll priority nodeEq nodeLe l t.children
    else l) l

/-- One iteration of the `while` loop (lines 84-118). -/
def loopBody (base other : Node) (st : State) : Except String State := do
  match st.l1, st.l2 with
  | e1 :: _, e2 :: _ =>
    if e1.2.height > e2.2.height then
      let (popped, l1') ← popMany nodeEq nodeLe st.l1
      return { st with l1 := openChildren l1' popped }
    else if e1.2.height < e2.2.height then
      let (popped, l2') ← popMany nodeEq nodeLe st.l2
      return { st with l2 := openChildren l2' popped }
    else
      let (h1, l1') ← popMany nodeEq nodeLe st.l1
      let (h2, l2') ← popMany nodeEq nodeLe st.l2
      let (a', m') ← processPairs base other h1 h2 st.a st.m
      let l1'' := reopenUnmapped l1' h1 a' Prod.fst m' keyMem
      let l2'' := reopenUnmapped l2' h2 a' Prod.snd m' valMem
      return ⟨l1'', l2'', a', m'⟩
  | _, _ => .error ("loop body entered with an empty list")

/-- The `while` loop with explicit fuel (each iteration strictly decreases
the total size of the subtrees held in the two lists, so the fuel chosen in
`topDown` below is never exhausted). -/
def topDownLoop (minHeight : Nat) (base other : Node) :
    Nat → State → Except String State
  | 0, _ => .error ("fuel exhausted")
  | fuel + 1, st =>
    if loopCond minHeight st then do
      let st' ← loopBody base other st
      topDownLoop minHeight base other fuel st'
    else
      .ok st

/-- Nodes deduplicated by identity (a Python set of nodes). -/
def dedupNodes : List Node → List Node
  | [] => []
  | n :: ns =>
    if ns.any (fun x => nodeEq x n) then dedupNodes ns
    else n :: dedupNodes ns

/-- `GumTreeDiff.dice`: ratio of mapped common descendants.  Raises
`ZeroDivisionError` when both descendant sets are empty (floats modelled
exactly as rationals; the claims below never compare dice values). -/
def dice (t1 t2 : Node) (m : Mapping) : Except String ℚ :=
  let d1 := dedupNodes t1.descendants
  let d2 := dedupNodes t2.descendants
  let common := (d1.filter (fun d =>
    match mapGet m d with
    | some x => d2.any (fun y => nodeEq y x)
    | none => false)).length
  if d1.length + d2.length = 0 then .error ("ZeroDivisionError")
  else .ok ((2 * common : ℚ) / ((d1.length : ℚ) + (d2.length : ℚ)))

/-- The parent of a node inside a tree (the source keeps explicit parent
pointers; here the parent is recovered from the root).  `none` for the
root itself (Python `None`). -/
def parentIn (root : Node) (n : Node) : Option Node :=
  root.subtree.find? (fun p => p.children.any (fun c => nodeEq c n))

/-- The sort key of line 121: `dice(x[0].parent, x[1].parent, m)`.  When a
candidate is a root its parent is `None` and `dice` raises
`AttributeError` on `None.descendants`. -/
def candKey (base other : Node) (m : Mapping) (p : Node × Node) :
    Except String ℚ :=
  match parentIn base p.1, parentIn other p.2 with
  | some p1, some p2 => dice p1 p2 m
  | _, _ => .error ("AttributeError: NoneType has no attribute descendants")

/-- Lines 120-127: sort the candidates by descending dice of their parents
(stable, like Python `list.sort`), then insert, for each candidate whose
nodes are still unmapped, every isomorphic still-unmapped pair of their
subtree traversals.  The `filter` of line 126 is lazy in Python, so the
membership tests see the partially-updated mapping. -/
def candidatePhase (base other : Node) (a : List (Node × Node))
    (m : Mapping) : Except String Mapping := do
  let keyed ← a.mapM (fun p => do
    let k ← candKey base other m p
    return (k, p))
  let sorted := keyed.mergeSort (fun x y => y.1 ≤ x.1)
  sorted.foldlM (fun m kp => do
    let (t1, t2) := kp.2
    if !(keyMem m t1) && !(valMem m t2) then
      (t1.subtree.product t2.subtree).foldlM (fun m p =>
        if isomorphic p.1 p.2 && !(keyMem m p.1) && !(valMem m p.2) then
          bidictSet m p.1 p.2
        else
          pure m) m
    else
      pure m) m

/-- `GumTreeDiff.top_down` with no initial mapping (as called by
`GumTreeDiff.__call__`): push the two roots, run the loop, then resolve
the candidate list.  `minHeight` is the `min_height` parameter
(default 2). -/
def topDown (minHeight : Nat) (base other : Node) : Except String Mapping := do
  let st0 : State :=
    ⟨push priority nodeEq nodeLe [] base, push priority nodeEq nodeLe [] other,
      [], []⟩
  let st ← topDownLoop minHeight base other (base.size + other.size + 2) st0
  candidatePhase base other st.a st.m

end Gumtree

/-! ## Concrete instances used by the claim theorems -/

namespace Instances

open Graph Tree Metadata Diff

/-- A dependence graph with a memory (`Input`) edge `1 → 2` and a
`Control` edge `1 → 3`, mirrored on the mapped side (`11 → 12`, `11 → 13`),
with the diff mapping `1 ↦ 11, 2 ↦ 12, 3 ↦ 13` and back. -/
def depGraphControl : DepGraph where
  nodes := [1, 2, 3, 11, 12, 13]
  deps n :=
    if n = 1 then [(2, .input), (3, .control)]
    else if n = 11 then [(12, .input), (13, .control)]
    else []
  children _ := []
  memOverride _ := none
  mapping n :=
    if n = 1 then some 11 else if n = 2 then some 12
    else if n = 3 then some 13 else if n = 11 then some 1
    else if n = 12 then some 2 else if n = 13 then some 3
    else none

/-- A one-node dependency graph whose node depends on itself through a
`Flow` (memory) edge: the self-referential cycle of the claim. -/
def depGraphSelfLoop : DepGraph where
  nodes := [0]
  deps n := if n = 0 then [(0, .flow)] else []
  children _ := []
  memOverride _ := none
  mapping _ := none

/-- Two single-node trees with the same type and label (distinct object
identities): isomorphic trees of height 1. -/
def leafBase : Node := .node 0 ("x") none []

def leafOther : Node := .node 1 ("x") none []

/-- A height-3 tree whose hash string coincides with the height-2 tree
`foldedTree` below: the middle child encoding can be re-read as part of a
label. -/
def tripleTree : Node :=
  .node 0 ("r") (some (""))
    [.node 1 ("") (some ("")) [.node 2 ("") (some ("")) []],
     .node 3 ("") (some ("a")) []]

/-- A height-2 tree hash-equal to `tripleTree`: its single child carries
the label `|{@|}}{@a`, making its encoding coincide with the
concatenation of the two child encodings of `tripleTree`. -/
def foldedTree : Node :=
  .node 10 ("r") (some ("")) [.node 11 ("") (some ("|\x7b@|\x7d\x7d\x7b@a")) []]

/-- A small tree of height 2 and its deep copy (fresh ids). -/
def copyBase : Node := .node 0 ("f") none [.node 1 ("x") (some ("v")) []]

def copyOther : Node := .node 10 ("f") none [.node 11 ("x") (some ("v")) []]

/-- `[1:0, 10:0)`: a range strictly containing `rangeInner`. -/
def rangeOuter : Metadata.Range := ⟨⟨"", 1, 0⟩, ⟨"", 10, 0⟩⟩

/-- `[2:0, 3:0)`: a range strictly contained in `rangeOuter`. -/
def rangeInner : Metadata.Range := ⟨⟨"", 2, 0⟩, ⟨"", 3, 0⟩⟩

/-- A `changes_by_node` lookup with a single changed node `5`. -/
def changesByNode5 : Nat → Option Change :=
  fun n => if n = 5 then some ⟨some 5, none, .rename⟩ else none

/-- A leaf of type `x@y` and label `z`: its hash string is `{x@y@z|}`. -/
def hashCollideA : Node := .node 0 ("x@y") (some ("z")) []

/-- A leaf of type `x` and label `y@z`: its hash string is also
`{x@y@z|}`, although type and label differ from `hashCollideA`. -/
def hashCollideB : Node := .node 1 ("x") (some ("y@z")) []

/-- A delimiter-free tree. -/
def cleanTreeA : Node := .node 0 ("A") none [.node 1 ("B") (some ("c")) []]

/-- A structurally equal, delimiter-free tree with fresh ids. -/
def cleanTreeB : Node := .node 5 ("A") none [.node 6 ("B") (some ("c")) []]

end Instances

/-! ## Claim theorems -/

/-- C6: `Range.compress` is claimed to return a sorted, non-overlapping,
idempotent compression.  The code instead raises `TypeError` on every
non-empty input (it calls `next()` on the sorted *list*); only the empty
input returns, with the empty result. -/
theorem range_compress_raises_type_error :
    Metadata.compress [Instances.rangeOuter] =
      .error ("TypeError: list object is not an iterator") ∧
    Metadata.compress [] = .ok [] :=
  ⟨rfl, rfl⟩

/-- C9: the overlap test is claimed commutative, including when one range
strictly contains the other.  For `rangeInner` strictly inside
`rangeOuter`, `rangeOuter.overlaps(rangeInner)` is `False` while
`rangeInner.overlaps(rangeOuter)` is `True`. -/
theorem range_overlaps_not_commutative :
    Metadata.containsRange Instances.rangeOuter Instances.rangeInner = true ∧
    Instances.rangeOuter ≠ Instances.rangeInner ∧
    Metadata.overlaps Instances.rangeOuter Instances.rangeInner = false ∧
    Metadata.overlaps Instances.rangeInner Instances.rangeOuter = true := by
  refine ⟨rfl, ?_, rfl, rfl⟩
  decide

/-- C10: `Location.parse` returns `None` (without raising) on the empty
string, and raises `ValueError` on every non-empty string that does not
consist of exactly three colon-separated segments. -/
theorem location_parse_empty_none_and_segments_error :
    Metadata.parse ("") = .ok none ∧
    ∀ s : String, s ≠ "" → (Metadata.pySplit ':' s).length ≠ 3 →
      ∃ e, Metadata.parse s = .error e := by
  refine ⟨rfl, ?_⟩
  intro s hs hlen
  have hlen0 : ¬s.length = 0 := by
    cases s with
    | mk data =>
      cases data with
      | nil => exact absurd rfl hs
      | cons c cs => simp [String.length]
  rw [Metadata.parse, if_neg hlen0]
  rcases hsp : Metadata.pySplit ':' s with _ | ⟨a, _ | ⟨b, _ | ⟨c, _ | d⟩⟩⟩
  · exact ⟨_, rfl⟩
  · exact ⟨_, rfl⟩
  · exact ⟨_, rfl⟩
  · exact absurd (by rw [hsp]; rfl) hlen
  · exact ⟨_, rfl⟩

/-- Witness for C10 at the concrete input `"a:b"` (two segments). -/
theorem location_parse_witness :
    ("a:b" : String) ≠ "" ∧ (Metadata.pySplit ':' "a:b").length ≠ 3 ∧
    ∃ e, Metadata.parse ("a:b") = .error e :=
  ⟨by decide, by decide,
    location_parse_empty_none_and_segments_error.2 "a:b" (by decide) (by decide)⟩

/-- C2: the reference analysis is claimed to emit a
`RenamedReferenceConflict` (severity 2.0) for a Rename and a
`DeletedReferenceConflict` (severity 1.5) for a Delete, and nothing for an
Insert.  The class severities match and Insert indeed yields nothing, but
the Rename and Delete paths raise `TypeError`: `get_conflict` passes
`changes=`, `base_nodes=` and `other_nodes=` as keywords, which
`AnalysisResult.__init__(self, *conflicting_changes, analysis)` does not
accept. -/
theorem reference_get_conflict_raises_type_error :
    Analysis.getConflict Instances.changesByNode5 (fun _ => 0) 0 1
        .rename [5] =
      .error ("TypeError: init got an unexpected keyword argument changes") ∧
    Analysis.getConflict Instances.changesByNode5 (fun _ => 0) 0 1
        .delete [5] =
      .error ("TypeError: init got an unexpected keyword argument changes") ∧
    Analysis.getConflict Instances.changesByNode5 (fun _ => 0) 0 1
        .insert [5] = .ok [] ∧
    Analysis.RenamedReferenceConflict.severity = 2 ∧
    Analysis.DeletedReferenceConflict.severity = 3 / 2 :=
  ⟨rfl, rfl, rfl, rfl, rfl⟩

/-- C3: the recursive dependency traversal is claimed to terminate on
cyclic graphs thanks to the visited (`exclude`) set.  The code only ever
appends to `exclude` and never consults it, so on the one-node graph with
a `Flow` self-edge the generator recurses forever: no amount of fuel
completes the traversal, whatever the initial `exclude` list. -/
theorem recursive_dependencies_diverge_on_self_loop :
    ∀ (fuel : Nat) (exclude : List Nat),
      Graph.recDeps Instances.depGraphSelfLoop none false fuel 0 exclude =
        none := by
  intro fuel
  induction fuel with
  | zero => intro _; simp [Graph.recDeps]
  | succ n ih =>
    intro exclude
    rw [Graph.recDeps]
    have hdep : Instances.depGraphSelfLoop.deps 0 =
        [(0, Graph.DependencyType.flow)] := rfl
    simp [hdep, Graph.recDepsLoop, ih]

/-- C7: `optimize_change_sets` is claimed to yield pairwise
`⊆`-incomparable sets regardless of input order.  With two unrelated nodes
and the input `[{0,1}, {0}]` (superset listed first) the subset-removal
loop only looks for supersets *after* the popped set, so both sets are
yielded although `{0} ⊆ {0,1}`. -/
theorem optimize_change_sets_keeps_subset :
    Analysis.optimizeChangeSets (fun _ _ => false) [[0, 1], [0]] =
      [[0, 1], [0]] ∧
    Analysis.listSubset [0] [0, 1] = true ∧
    ([0] : List Nat) ≠ [0, 1] := by
  refine ⟨?_, by decide, by decide⟩
  decide

/-- C1: the dependence analysis cone is claimed to traverse only
memory-kind edges (Flow, Anti, Input, Output).  The code's filter
predicate `is_memory_dependency` returns the bound method itself (the call
parentheses are missing), which is always truthy, so *every* edge kind is
traversed: on `depGraphControl`, node `13` — reachable from the
memory-operation node `1` only through `Control` edges — lands in the
computed affected set, while the set the claim describes excludes it (and
includes the own-side memory dependency `2`, which the code's affected set
omits because `get_affected` returns mapped-side nodes only). -/
theorem dependence_affected_follows_control_edges :
    Dependence.affectedNodes Instances.depGraphControl 1 =
      some [1, 12, 13, 11] ∧
    Dependence.specAffected Instances.depGraphControl 1 =
      some [1, 2, 12, 11] ∧
    13 ∈ [1, 12, 13, 11] ∧ 13 ∉ [1, 2, 12, 11] ∧
    2 ∉ [1, 12, 13, 11] ∧ 2 ∈ [1, 2, 12, 11] := by
  refine ⟨?_, ?_, by decide, by decide, by decide, by decide⟩ <;> decide

/-! ### C8: `PriorityList.pop_many` -/

section PopMany

variable {α : Type} [DecidableEq α] {aLe : α → α → Bool}

/-- Unfolding of the tuple comparison. -/
theorem entryLe_iff (x y : Int × α) :
    Collections.entryLe Collections.eqB aLe x y = true ↔
      x.1 < y.1 ∨ (x.1 = y.1 ∧ (x.2 = y.2 ∨ aLe x.2 y.2 = true)) := by
  simp only [Collections.entryLe, Collections.eqB]
  by_cases k : x.1 = y.1
  · by_cases o : x.2 = y.2 <;> simp [k, o]
  · simp [k]

theorem entryLe_rfl (x : Int × α) :
    Collections.entryLe Collections.eqB aLe x x = true := by
  rw [entryLe_iff]
  exact Or.inr ⟨rfl, Or.inl rfl⟩

theorem entryLe_total (htot : ∀ x y : α, (aLe x y || aLe y x) = true)
    (x y : Int × α) :
    Collections.entryLe Collections.eqB aLe x y = true ∨
      Collections.entryLe Collections.eqB aLe y x = true := by
  rw [entryLe_iff, entryLe_iff]
  rcases lt_trichotomy x.1 y.1 with h | h | h
  · exact Or.inl (Or.inl h)
  · rcases Bool.or_eq_true_iff.1 (htot x.2 y.2) with ha | ha
    · exact Or.inl (Or.inr ⟨h, Or.inr ha⟩)
    · exact Or.inr (Or.inr ⟨h.symm, Or.inr ha⟩)
  · exact Or.inr (Or.inl h)

theorem entryLe_trans
    (htrans : ∀ x y z : α, aLe x y = true → aLe y z = true → aLe x z = true)
    {x y z : Int × α}
    (h1 : Collections.entryLe Collections.eqB aLe x y = true)
    (h2 : Collections.entryLe Collections.eqB aLe y z = true) :
    Collections.entryLe Collections.eqB aLe x z = true := by
  rw [entryLe_iff] at h1 h2 ⊢
  rcases h1 with h1 | ⟨k1, o1⟩
  · rcases h2 with h2 | ⟨k2, _⟩
    · exact Or.inl (h1.trans h2)
    · exact Or.inl (k2 ▸ h1)
  · rcases h2 with h2 | ⟨k2, o2⟩
    · exact Or.inl (k1 ▸ h2)
    · refine Or.inr ⟨k1.trans k2, ?_⟩
      rcases o1 with o1 | o1
      · exact o1 ▸ o2
      · rcases o2 with o2 | o2
        · exact Or.inr (o2 ▸ o1)
        · exact Or.inr (htrans _ _ _ o1 o2)

omit [DecidableEq α] in
theorem mem_heapInsert {aEq : α → α → Bool} {e x : Int × α} :
    ∀ {l : List (Int × α)},
      x ∈ Collections.heapInsert aEq aLe e l ↔ x = e ∨ x ∈ l := by
  intro l
  induction l with
  | nil => simp [Collections.heapInsert]
  | cons y ys ih =>
    rw [Collections.heapInsert]
    by_cases hy : Collections.entryLe aEq aLe y e = true
    · rw [if_pos hy]
      simp [List.mem_cons, ih, or_left_comm]
    · rw [if_neg hy]
      simp [List.mem_cons]

theorem heapInsert_pairwise
    (htot : ∀ x y : α, (aLe x y || aLe y x) = true)
    (htrans : ∀ x y z : α, aLe x y = true → aLe y z = true → aLe x z = true)
    (e : Int × α) :
    ∀ {l : List (Int × α)},
      l.Pairwise (fun a b => Collections.entryLe Collections.eqB aLe a b = true) →
      (Collections.heapInsert Collections.eqB aLe e l).Pairwise
        (fun a b => Collections.entryLe Collections.eqB aLe a b = true) := by
  intro l
  induction l with
  | nil => intro _; simp [Collections.heapInsert]
  | cons x xs ih =>
    intro hp
    rw [Collections.heapInsert]
    rcases List.pairwise_cons.1 hp with ⟨hx, hxs⟩
    by_cases hxe : Collections.entryLe Collections.eqB aLe x e = true
    · simp only [hxe, if_pos]
      refine List.pairwise_cons.2 ⟨?_, ih hxs⟩
      intro y hy
      rcases mem_heapInsert.1 hy with rfl | hy
      · exact hxe
      · exact hx y hy
    · simp only [hxe, if_neg, Bool.not_eq_true]
      have hex : Collections.entryLe Collections.eqB aLe e x = true := by
        rcases entryLe_total htot x e with h | h
        · exact absurd h hxe
        · exact h
      refine List.pairwise_cons.2 ⟨?_, hp⟩
      intro y hy
      rcases List.mem_cons.1 hy with rfl | hy
      · exact hex
      · exact entryLe_trans htrans hex (hx y hy)

theorem openAll_pairwise
    (htot : ∀ x y : α, (aLe x y || aLe y x) = true)
    (htrans : ∀ x y z : α, aLe x y = true → aLe y z = true → aLe x z = true)
    (key : α → Int) (objs : List α) :
    ∀ (data : List (Int × α)),
      data.Pairwise (fun a b => Collections.entryLe Collections.eqB aLe a b = true) →
      (Collections.openAll key Collections.eqB aLe data objs).Pairwise
        (fun a b => Collections.entryLe Collections.eqB aLe a b = true) := by
  induction objs with
  | nil => intro data h; exact h
  | cons x xs ih =>
    intro data h
    exact ih _ (heapInsert_pairwise htot htrans _ h)

theorem pushAll_pairwise
    (htot : ∀ x y : α, (aLe x y || aLe y x) = true)
    (htrans : ∀ x y z : α, aLe x y = true → aLe y z = true → aLe x z = true)
    (key : α → Int) (objs : List α) :
    (Collections.pushAll key Collections.eqB aLe objs).Pairwise
      (fun a b => Collections.entryLe Collections.eqB aLe a b = true) :=
  openAll_pairwise htot htrans key objs [] (by simp)

omit [DecidableEq α] in
theorem popManyLoop_eq {aEq : α → α → Bool} (min : Int × α) :
    ∀ l : List (Int × α),
      Collections.popManyLoop aEq aLe min l =
        (l.takeWhile (fun y => Collections.entryLe aEq aLe y min),
          l.dropWhile (fun y => Collections.entryLe aEq aLe y min)) := by
  intro l
  induction l with
  | nil => rfl
  | cons x xs ih =>
    rw [Collections.popManyLoop]
    by_cases hx : Collections.entryLe aEq aLe x min = true
    · simp [hx, ih, List.takeWhile_cons, List.dropWhile_cons]
    · simp [hx, List.takeWhile_cons, List.dropWhile_cons]

theorem dropWhile_entryLe_false
    (htrans : ∀ x y z : α, aLe x y = true → aLe y z = true → aLe x z = true)
    (e : Int × α) :
    ∀ l : List (Int × α),
      l.Pairwise (fun a b => Collections.entryLe Collections.eqB aLe a b = true) →
      ∀ y ∈ l.dropWhile (fun y => Collections.entryLe Collections.eqB aLe y e),
        Collections.entryLe Collections.eqB aLe y e = false := by
  intro l
  induction l with
  | nil => intro _ y hy; simp [List.dropWhile] at hy
  | cons x xs ih =>
    intro hp y hy
    rcases List.pairwise_cons.1 hp with ⟨hx, hxs⟩
    rw [List.dropWhile_cons] at hy
    by_cases hxe : Collections.entryLe Collections.eqB aLe x e = true
    · rw [if_pos hxe] at hy
      exact ih hxs y hy
    · rw [if_neg hxe] at hy
      rcases List.mem_cons.1 hy with rfl | hy
      · exact Bool.not_eq_true _ ▸ Bool.of_not_eq_true hxe
      · by_contra hcon
        rw [Bool.not_eq_false] at hcon
        exact hxe (entryLe_trans htrans (hx y hy) hcon)

/-- C8 (amended): `pop_many` on an empty priority list raises `IndexError`;
on a non-empty list it removes and returns exactly the elements whose whole
heap entry `(key, element)` compares `<=`-equal to the minimum entry — the
elements that tie with the minimum under the *tuple* comparison, which is
all minimum-key elements only when equal-key elements also compare equal
under the element order (as in the GumTree usage, where nodes compare by
height).  The remaining entries all compare strictly above the minimum. -/
theorem pop_many_ties_amended {α : Type} [DecidableEq α] (aLe : α → α → Bool)
    (htot : ∀ x y : α, (aLe x y || aLe y x) = true)
    (htrans : ∀ x y z : α, aLe x y = true → aLe y z = true → aLe x z = true)
    (key : α → Int) (xs : List α) :
    Collections.popMany Collections.eqB aLe ([] : List (Int × α)) =
      .error ("IndexError: index out of range") ∧
    (xs ≠ [] → ∃ e taken rest,
      Collections.popMany Collections.eqB aLe
          (Collections.pushAll key Collections.eqB aLe xs) =
        .ok ((e :: taken).map Prod.snd, rest) ∧
      Collections.pushAll key Collections.eqB aLe xs = (e :: taken) ++ rest ∧
      (∀ y ∈ e :: taken, Collections.entryLe Collections.eqB aLe y e = true) ∧
      (∀ y ∈ rest, Collections.entryLe Collections.eqB aLe y e = false) ∧
      (∀ y ∈ rest, Collections.entryLe Collections.eqB aLe e y = true)) := by
  refine ⟨rfl, ?_⟩
  intro hne
  have hstep : ∀ (e : Int × α) (l : List (Int × α)),
      (Collections.heapInsert Collections.eqB aLe e l).length = l.length + 1 := by
    intro e l
    induction l with
    | nil => rfl
    | cons x xs ih =>
      rw [Collections.heapInsert]
      by_cases hx : Collections.entryLe Collections.eqB aLe x e = true <;>
        simp [hx, ih]
  have hopen : ∀ (objs : List α) (data : List (Int × α)),
      (Collections.openAll key Collections.eqB aLe data objs).length =
        data.length + objs.length := by
    intro objs
    induction objs with
    | nil => intro data; simp [Collections.openAll]
    | cons x xs ih =>
      intro data
      have h1 := ih (Collections.push key Collections.eqB aLe data x)
      rw [Collections.openAll] at h1 ⊢
      simp only [List.foldl_cons] at h1 ⊢
      rw [h1]
      have h2 : (Collections.push key Collections.eqB aLe data x).length =
          data.length + 1 := by
        rw [Collections.push]; exact hstep _ _
      rw [h2]
      simp
      omega
  have hlen : (Collections.pushAll key Collections.eqB aLe xs).length =
      xs.length := by
    simpa [Collections.pushAll] using hopen xs []
  have hmtw : ∀ (p : Int × α → Bool) (l : List (Int × α)) (y : Int × α),
      y ∈ l.takeWhile p → p y = true := by
    intro p l
    induction l with
    | nil => intro y hy; simp [List.takeWhile] at hy
    | cons x xs ih =>
      intro y hy
      rw [List.takeWhile_cons] at hy
      by_cases hx : p x = true
      · rw [if_pos hx] at hy
        rcases List.mem_cons.1 hy with rfl | hy
        · exact hx
        · exact ih y hy
      · rw [if_neg hx] at hy
        simp at hy
  have hp := pushAll_pairwise htot htrans key xs
  rcases hd : Collections.pushAll key Collections.eqB aLe xs with _ | ⟨e, tail⟩
  · rw [hd] at hlen
    exact absurd (List.length_eq_zero.1 hlen.symm) hne
  · rw [hd] at hp
    rcases List.pairwise_cons.1 hp with ⟨hhead, htail⟩
    refine ⟨e,
      tail.takeWhile (fun y => Collections.entryLe Collections.eqB aLe y e),
      tail.dropWhile (fun y => Collections.entryLe Collections.eqB aLe y e),
      ?_, ?_, ?_, ?_, ?_⟩
    · rw [Collections.popMany, popManyLoop_eq]
    · rw [List.cons_append, List.takeWhile_append_dropWhile]
    · intro y hy
      rcases List.mem_cons.1 hy with rfl | hy
      · exact entryLe_rfl y
      · exact hmtw _ tail y hy
    · exact dropWhile_entryLe_false htrans e tail htail
    · intro y hy
      exact hhead y ((List.dropWhile_sublist _).subset hy)

/-- C8 counterexample: with key `x // 10` and contents `[11, 12]`, both
elements share the minimum key `1`, yet `pop_many` removes and returns only
`[11]`, leaving `(1, 12)` behind — the loop compares whole `(key, object)`
tuples against the first popped entry, so an equal-key but larger element
stops it. -/
theorem pop_many_counterexample :
    Collections.popMany Collections.eqB (fun a b : Int => decide (a ≤ b))
        (Collections.pushAll (fun x => x / 10) Collections.eqB
          (fun a b : Int => decide (a ≤ b)) [11, 12]) =
      .ok ([11], [(1, 12)]) ∧
    (11 : Int) / 10 = 1 ∧ (12 : Int) / 10 = 1 :=
  ⟨rfl, by decide, by decide⟩

/-- Witness for the amended C8 theorem at `key = (· / 10)`,
`xs = [11, 12]` over `Int`. -/
theorem pop_many_ties_amended_witness :
    Collections.popMany Collections.eqB (fun a b : Int => decide (a ≤ b))
        ([] : List (Int × Int)) =
      .error ("IndexError: index out of range") ∧
    (([11, 12] : List Int) ≠ [] → ∃ e taken rest,
      Collections.popMany Collections.eqB (fun a b : Int => decide (a ≤ b))
          (Collections.pushAll (fun x => x / 10) Collections.eqB
            (fun a b : Int => decide (a ≤ b)) [11, 12]) =
        .ok ((e :: taken).map Prod.snd, rest) ∧
      Collections.pushAll (fun x => x / 10) Collections.eqB
          (fun a b : Int => decide (a ≤ b)) [11, 12] = (e :: taken) ++ rest ∧
      (∀ y ∈ e :: taken,
        Collections.entryLe Collections.eqB (fun a b : Int => decide (a ≤ b))
          y e = true) ∧
      (∀ y ∈ rest,
        Collections.entryLe Collections.eqB (fun a b : Int => decide (a ≤ b))
          y e = false) ∧
      (∀ y ∈ rest,
        Collections.entryLe Collections.eqB (fun a b : Int => decide (a ≤ b))
          e y = true)) :=
  pop_many_ties_amended (fun a b : Int => decide (a ≤ b))
    (by intro x y; simp; omega)
    (by intro x y z; simp; omega)
    (fun x => x / 10) [11, 12]

end PopMany

/-! ### C5: subtree hashing -/

section HashIso

open Tree

theorem str_data_append (s t : String) : (s ++ t).data = s.data ++ t.data := by
  cases s; cases t; rfl

theorem str_data_inj {s t : String} (h : s.data = t.data) : s = t := by
  cases s; cases t; exact congrArg String.mk h

theorem encLList_cons (c : Node) (cs : List Node) :
    encLList (c :: cs) = encL c ++ encLList cs := by
  show (hashStrList (c :: cs)).data = _
  rw [hashStrList, str_data_append]
  rfl

theorem encL_node (i : Nat) (t : String) (l : Option String) (cs : List Node) :
    encL (.node i t l cs) =
      '\x7b' :: (t.data ++ '@' ::
        ((labelStr l).data ++ '|' :: (encLList cs ++ ['\x7d']))) := by
  show (Node.hashStr (.node i t l cs)).data = _
  rw [Node.hashStr]
  simp only [str_data_append, encLList]
  simp

theorem encL_ne_nil (n : Node) : encL n ≠ [] := by
  cases n with
  | node i t l cs => rw [encL_node]; simp

theorem bal_append (a b : List Char) : bal (a ++ b) = bal a + bal b := by
  induction a with
  | nil => simp [Tree.bal]
  | cons c cs ih => simp [Tree.bal, ih, add_assoc]

theorem bal_of_no_braces :
    ∀ cs : List Char, (∀ c ∈ cs, c ≠ '\x7b' ∧ c ≠ '\x7d') → bal cs = 0 := by
  intro cs h
  induction cs with
  | nil => rfl
  | cons c cs ih =>
    have hc := h c (List.mem_cons_self c cs)
    rw [Tree.bal, if_neg hc.1, if_neg hc.2, ih (fun x hx => h x (List.mem_cons_of_mem c hx))]
    simp

theorem cleanStr_chars {s : String} (h : cleanStr s = true) :
    ∀ c ∈ s.data, c ≠ '\x7b' ∧ c ≠ '\x7d' ∧ c ≠ '@' ∧ c ≠ '|' := by
  intro c hc
  have := List.all_eq_true.1 h c hc
  simp only [Bool.not_eq_true', Bool.or_eq_false_iff] at this
  refine ⟨?_, ?_, ?_, ?_⟩ <;> simp_all [decide_eq_false_iff_not]

theorem bal_clean_split {s : String} (h : cleanStr s = true) {p q : List Char}
    (heq : s.data = p ++ q) : bal p = 0 := by
  refine bal_of_no_braces p (fun c hc => ?_)
  have hmem : c ∈ s.data := heq ▸ List.mem_append_left q hc
  exact ⟨(cleanStr_chars h c hmem).1, (cleanStr_chars h c hmem).2.1⟩

theorem node_size_pos (n : Node) : 1 ≤ n.size := by
  cases n with
  | node i t l cs => rw [Node.size]; omega

theorem node_clean_parts {i t l cs} (h : Node.clean (.node i t l cs) = true) :
    cleanStr t = true ∧ cleanStr (labelStr l) = true ∧ cleanList cs = true := by
  rw [Node.clean] at h
  simpa [Bool.and_eq_true, and_assoc] using h

/-- The combined balance facts, by strong induction on subtree size: for a
clean tree the encoding balances to 0 and every non-empty proper prefix
has positive balance; for a clean list of trees every prefix of the
concatenated encoding has non-negative balance. -/
theorem bal_facts :
    ∀ k : Nat,
      (∀ n : Node, n.size ≤ k → n.clean = true →
        bal (encL n) = 0 ∧
        (∀ p q, encL n = p ++ q → p ≠ [] → q ≠ [] → 1 ≤ bal p)) ∧
      (∀ cs : List Node, sizeList cs ≤ k → cleanList cs = true →
        bal (encLList cs) = 0 ∧ (∀ p q, encLList cs = p ++ q → 0 ≤ bal p)) := by
  intro k
  induction k using Nat.strong_induction_on with
  | _ k ih =>
    have hnode : ∀ n : Node, n.size ≤ k → n.clean = true →
        bal (encL n) = 0 ∧
        (∀ p q, encL n = p ++ q → p ≠ [] → q ≠ [] → 1 ≤ bal p) := by
      intro n hsz hcl
      cases n with
      | node i t l cs =>
        rw [Node.size] at hsz
        obtain ⟨hct, hcl2, hccs⟩ := node_clean_parts hcl
        have hlt : sizeList cs < k := by omega
        obtain ⟨hbal0, hpre0⟩ := (ih (sizeList cs) hlt).2 cs le_rfl hccs
        have hbt : bal t.data = 0 :=
          bal_clean_split hct (q := []) (by simp)
        have hbl : bal (labelStr l).data = 0 :=
          bal_clean_split hcl2 (q := []) (by simp)
        constructor
        · rw [encL_node]
          simp [Tree.bal, bal_append, hbt, hbl, hbal0]
        · intro p q hpq hp hq
          rw [encL_node] at hpq
          cases p with
          | nil => exact absurd rfl hp
          | cons c p1 =>
            rw [List.cons_append] at hpq
            injection hpq with hc hpq1
            subst hc
            have h0 : (0 : Int) ≤ bal p1 := by
              rcases List.append_eq_append_iff.1 hpq1 with
                ⟨q1, hA, hB⟩ | ⟨p2, hA, hB⟩
              · -- p1 = t.data ++ q1 and the rest starts at the separator
                subst hA
                rw [bal_append, hbt]
                have h2 : (0 : Int) ≤ bal q1 := by
                  cases q1 with
                  | nil => simp [Tree.bal]
                  | cons c2 q2 =>
                    rw [List.cons_append] at hB
                    injection hB with hc2 hB2
                    subst hc2
                    rw [Tree.bal]
                    have h3 : (0 : Int) ≤ bal q2 := by
                      rcases List.append_eq_append_iff.1 hB2 with
                        ⟨q3, hA2, hB3⟩ | ⟨p3, hA2, _⟩
                      · subst hA2
                        rw [bal_append, hbl]
                        have h4 : (0 : Int) ≤ bal q3 := by
                          cases q3 with
                          | nil => simp [Tree.bal]
                          | cons c4 q4 =>
                            rw [List.cons_append] at hB3
                            injection hB3 with hc4 hB4
                            subst hc4
                            rw [Tree.bal]
                            have h5 : (0 : Int) ≤ bal q4 := by
                              rcases List.append_eq_append_iff.1 hB4 with
                                ⟨q5, hA3, hB5⟩ | ⟨p5, hA3, _⟩
                              · subst hA3
                                rw [bal_append, hbal0]
                                have h6 : (0 : Int) ≤ bal q5 := by
                                  cases q5 with
                                  | nil => simp [Tree.bal]
                                  | cons c6 q6 =>
                                    rw [List.cons_append] at hB5
                                    injection hB5 with hc6 hB6
                                    have : q6 = [] ∧ q = [] :=
                                      List.append_eq_nil.1 hB6.symm
                                    exact absurd this.2 hq
                                omega
                              · exact hpre0 q4 p5 hA3
                            simp
                            omega
                        omega
                      · exact le_of_eq (bal_clean_split hcl2 hA2).symm
                    simp
                    omega
                omega
              · exact le_of_eq (bal_clean_split hct hA).symm
            rw [Tree.bal, if_pos rfl]
            omega
    refine ⟨hnode, ?_⟩
    intro cs hsz hc
    induction cs with
    | nil =>
      refine ⟨rfl, ?_⟩
      intro p q h
      have hp : p = [] := (List.append_eq_nil.1 h.symm).1
      subst hp
      simp [Tree.bal]
    | cons c cs ihcs =>
      rw [Tree.sizeList] at hsz
      rw [Tree.cleanList, Bool.and_eq_true] at hc
      have hc1 : c.size ≤ k := by have := node_size_pos c; omega
      obtain ⟨hb1, hpre1⟩ := hnode c hc1 hc.1
      have hsz2 : sizeList cs ≤ k := by have := node_size_pos c; omega
      obtain ⟨hb2, hpre2⟩ := ihcs hsz2 hc.2
      constructor
      · rw [encLList_cons, bal_append, hb1, hb2]; rfl
      · intro p q hpq
        rw [encLList_cons] at hpq
        rcases List.append_eq_append_iff.1 hpq with
          ⟨q1, hA, hB⟩ | ⟨p2, hA, hB⟩
        · -- p = encL c ++ q1
          subst hA
          rw [bal_append, hb1]
          have := hpre2 q1 q hB
          omega
        · -- p is a prefix of the first child encoding
          rcases Classical.em (p = []) with rfl | hp
          · simp [Tree.bal]
          · rcases Classical.em (p2 = []) with rfl | hp2
            · rw [List.append_nil] at hA
              rw [← hA, hb1]
            · have := hpre1 p p2 hA hp hp2
              omega

theorem bal_encL_zero {n : Node} (h : n.clean = true) : bal (encL n) = 0 :=
  ((bal_facts n.size).1 n le_rfl h).1

theorem bal_encL_proper_prefix {n : Node} (h : n.clean = true) {p q : List Char}
    (hpq : encL n = p ++ q) (hp : p ≠ []) (hq : q ≠ []) : 1 ≤ bal p :=
  ((bal_facts n.size).1 n le_rfl h).2 p q hpq hp hq

/-- Clean encodings are prefix-free: if the two encodings open the same
character stream, they are equal. -/
theorem encL_prefix_free {a b : Node} (ha : a.clean = true)
    (hb : b.clean = true) {r s : List Char}
    (h : encL a ++ r = encL b ++ s) : encL a = encL b ∧ r = s := by
  rcases List.append_eq_append_iff.1 h with ⟨q1, hA, hB⟩ | ⟨p2, hA, hB⟩
  · rcases Classical.em (q1 = []) with rfl | hq1
    · rw [List.append_nil] at hA
      rw [List.nil_append] at hB
      exact ⟨hA.symm, hB⟩
    · have h1 := bal_encL_proper_prefix hb hA (encL_ne_nil a) hq1
      have h0 := bal_encL_zero ha
      omega
  · rcases Classical.em (p2 = []) with rfl | hp2
    · rw [List.append_nil] at hA
      rw [List.nil_append] at hB
      exact ⟨hA, hB.symm⟩
    · have h1 := bal_encL_proper_prefix ha hA (encL_ne_nil b) hp2
      have h0 := bal_encL_zero hb
      omega

/-- Splitting a concatenation at the first occurrence of a delimiter that
occurs in neither left part. -/
theorem split_at_first {d : Char} :
    ∀ (ta tb : List Char) {ra rb : List Char}, d ∉ ta → d ∉ tb →
      ta ++ d :: ra = tb ++ d :: rb → ta = tb ∧ ra = rb := by
  intro ta
  induction ta with
  | nil =>
    intro tb ra rb _ hdb h
    cases tb with
    | nil =>
      rw [List.nil_append, List.nil_append] at h
      injection h with _ h2
      exact ⟨rfl, h2⟩
    | cons x tb2 =>
      rw [List.nil_append, List.cons_append] at h
      injection h with h1 _
      exact absurd (h1 ▸ List.mem_cons_self x tb2) hdb
  | cons a ta2 ih =>
    intro tb ra rb hda hdb h
    cases tb with
    | nil =>
      rw [List.cons_append, List.nil_append] at h
      injection h with h1 _
      exact absurd (h1 ▸ List.mem_cons_self a ta2) hda
    | cons x tb2 =>
      rw [List.cons_append, List.cons_append] at h
      injection h with h1 h2
      have hda2 : d ∉ ta2 := fun hm => hda (List.mem_cons_of_mem a hm)
      have hdb2 : d ∉ tb2 := fun hm => hdb (List.mem_cons_of_mem x hm)
      obtain ⟨he, hr⟩ := ih tb2 hda2 hdb2 h2
      exact ⟨by rw [h1, he], hr⟩

theorem not_mem_of_cleanStr {s : String} (h : cleanStr s = true) :
    '@' ∉ s.data ∧ '|' ∉ s.data := by
  constructor
  · intro hm
    exact (cleanStr_chars h _ hm).2.2.1 rfl
  · intro hm
    exact (cleanStr_chars h _ hm).2.2.2 rfl

/-- Injectivity of the clean encoding, by strong induction on size. -/
theorem encL_inj :
    ∀ k : Nat,
      (∀ a b : Node, a.size ≤ k → a.clean = true → b.clean = true →
        encL a = encL b → isoR a b = true) ∧
      (∀ as bs : List Node, sizeList as ≤ k → cleanList as = true →
        cleanList bs = true → encLList as = encLList bs →
        isoRList as bs = true) := by
  intro k
  induction k using Nat.strong_induction_on with
  | _ k ih =>
    have hnode : ∀ a b : Node, a.size ≤ k → a.clean = true →
        b.clean = true → encL a = encL b → isoR a b = true := by
      intro a b hsz ha hb h
      cases a with
      | node i1 t1 l1 cs1 =>
        cases b with
        | node i2 t2 l2 cs2 =>
          rw [encL_node, encL_node] at h
          injection h with _ h1
          obtain ⟨hct1, hcl1, hcs1⟩ := node_clean_parts ha
          obtain ⟨hct2, hcl2, hcs2⟩ := node_clean_parts hb
          obtain ⟨ht, h2⟩ := split_at_first t1.data t2.data
            (not_mem_of_cleanStr hct1).1 (not_mem_of_cleanStr hct2).1 h1
          obtain ⟨hl, h3⟩ := split_at_first (labelStr l1).data (labelStr l2).data
            (not_mem_of_cleanStr hcl1).2 (not_mem_of_cleanStr hcl2).2 h2
          have h4 : encLList cs1 = encLList cs2 := List.append_cancel_right h3
          rw [Node.size] at hsz
          have hlt : sizeList cs1 < k := by omega
          have hlist := (ih (sizeList cs1) hlt).2 cs1 cs2 le_rfl hcs1 hcs2 h4
          rw [Tree.isoR]
          simp only [Bool.and_eq_true, decide_eq_true_eq]
          exact ⟨⟨str_data_inj ht, str_data_inj hl⟩, hlist⟩
    refine ⟨hnode, ?_⟩
    intro as bs hsz ha hb h
    induction as generalizing bs with
    | nil =>
      cases bs with
      | nil => rfl
      | cons b bs2 =>
        rw [encLList_cons] at h
        exact absurd (List.append_eq_nil.1 h.symm).1 (encL_ne_nil b)
    | cons a as2 iha =>
      cases bs with
      | nil =>
        rw [encLList_cons] at h
        exact absurd (List.append_eq_nil.1 h).1 (encL_ne_nil a)
      | cons b bs2 =>
        rw [encLList_cons, encLList_cons] at h
        rw [Tree.cleanList, Bool.and_eq_true] at ha hb
        obtain ⟨heq, hrest⟩ := encL_prefix_free ha.1 hb.1 h
        rw [Tree.sizeList] at hsz
        have hab : isoR a b = true :=
          hnode a b (by omega) ha.1 hb.1 heq
        have hsz2 : sizeList as2 ≤ k := by
          have := node_size_pos a; omega
        have htail := iha bs2 hsz2 ha.2 hb.2 hrest
        rw [Tree.isoRList, Bool.and_eq_true]
        exact ⟨hab, htail⟩

/-- Soundness of the encoding: rendered isomorphism gives equal hash
strings (no cleanliness needed). -/
theorem isoR_hashStr :
    ∀ k : Nat,
      (∀ a b : Node, a.size ≤ k → isoR a b = true →
        Node.hashStr a = Node.hashStr b) ∧
      (∀ as bs : List Node, sizeList as ≤ k → isoRList as bs = true →
        hashStrList as = hashStrList bs) := by
  intro k
  induction k using Nat.strong_induction_on with
  | _ k ih =>
    have hnode : ∀ a b : Node, a.size ≤ k → isoR a b = true →
        Node.hashStr a = Node.hashStr b := by
      intro a b hsz hiso
      cases a with
      | node i1 t1 l1 cs1 =>
        cases b with
        | node i2 t2 l2 cs2 =>
          rw [Tree.isoR] at hiso
          simp only [Bool.and_eq_true, decide_eq_true_eq] at hiso
          obtain ⟨⟨ht, hl⟩, hcs⟩ := hiso
          rw [Node.size] at hsz
          have hlt : sizeList cs1 < k := by omega
          have hlist := (ih (sizeList cs1) hlt).2 cs1 cs2 le_rfl hcs
          rw [Node.hashStr, Node.hashStr, ht, hl, hlist]
    refine ⟨hnode, ?_⟩
    intro as bs hsz hiso
    induction as generalizing bs with
    | nil =>
      cases bs with
      | nil => rfl
      | cons b bs2 =>
        exact absurd hiso (by rw [show isoRList [] (b :: bs2) = false from rfl]; simp)
    | cons a as2 iha =>
      cases bs with
      | nil =>
        exact absurd hiso (by rw [show isoRList (a :: as2) [] = false from rfl]; simp)
      | cons b bs2 =>
        rw [Tree.isoRList, Bool.and_eq_true] at hiso
        rw [Tree.sizeList] at hsz
        have h1 := hnode a b (by omega) hiso.1
        have hsz2 : sizeList as2 ≤ k := by have := node_size_pos a; omega
        have h2 := iha bs2 hsz2 hiso.2
        rw [Tree.hashStrList, Tree.hashStrList, h1, h2]

theorem hashStrList_congr :
    ∀ (as bs : List Node), as.map Node.hashStr = bs.map Node.hashStr →
      hashStrList as = hashStrList bs := by
  intro as
  induction as with
  | nil =>
    intro bs h
    cases bs with
    | nil => rfl
    | cons b bs2 => simp at h
  | cons a as2 ih =>
    intro bs h
    cases bs with
    | nil => simp at h
    | cons b bs2 =>
      simp only [List.map_cons, List.cons.injEq] at h
      rw [Tree.hashStrList, Tree.hashStrList, h.1, ih bs2 h.2]

/-- C5 (counterexample): the leaves `(type "x@y", label "z")` and
`(type "x", label "y@z")` have the same hash string `{x@y@z|}` (hence the
same BLAKE2b digest), yet they are not tree-isomorphic under
`(type, label)` — hash equality does not imply isomorphism when types or
labels contain the encoding's delimiter characters. -/
theorem hash_equality_counterexample :
    Tree.Node.hash Instances.hashCollideA = Tree.Node.hash Instances.hashCollideB ∧
    Tree.isoTL Instances.hashCollideA Instances.hashCollideB = false ∧
    Instances.hashCollideA.typ ≠ Instances.hashCollideB.typ :=
  ⟨rfl, by decide, by decide⟩

/-- C5 (amended): the hash depends deterministically only on the type, the
rendered label (`None` renders as the string `"None"`) and the ordered
children's hashes; isomorphism under `(type, rendered label)` always
implies hash equality; and the converse — hash equality implies
isomorphism — holds provided types and rendered labels avoid the four
delimiter characters `{`, `}`, `@`, `|` of the encoding (the BLAKE2b
digest being modelled as collision-free). -/
theorem hash_iso_amended :
    (∀ a b : Tree.Node, Tree.isoR a b = true →
      Tree.Node.hash a = Tree.Node.hash b) ∧
    (∀ a b : Tree.Node, a.clean = true → b.clean = true →
      Tree.Node.hash a = Tree.Node.hash b → Tree.isoR a b = true) ∧
    (∀ a b : Tree.Node, a.typ = b.typ →
      Tree.labelStr a.label = Tree.labelStr b.label →
      a.children.map Tree.Node.hashStr = b.children.map Tree.Node.hashStr →
      Tree.Node.hash a = Tree.Node.hash b) := by
  refine ⟨?_, ?_, ?_⟩
  · intro a b h
    exact (isoR_hashStr a.size).1 a b le_rfl h
  · intro a b ha hb h
    have hdata : encL a = encL b := congrArg String.data h
    exact (encL_inj a.size).1 a b le_rfl ha hb hdata
  · intro a b ht hl hcs
    cases a with
    | node i1 t1 l1 cs1 =>
      cases b with
      | node i2 t2 l2 cs2 =>
        show Node.hashStr _ = Node.hashStr _
        rw [Node.hashStr, Node.hashStr]
        rw [show t1 = t2 from ht, show labelStr l1 = labelStr l2 from hl,
          hashStrList_congr cs1 cs2 hcs]

/-- Witness for the amended C5 theorem: two clean, structurally equal
trees, exercising both directions of the equivalence. -/
theorem hash_iso_amended_witness :
    Tree.Node.hash Instances.cleanTreeA = Tree.Node.hash Instances.cleanTreeB ∧
    Tree.isoR Instances.cleanTreeA Instances.cleanTreeB = true :=
  ⟨hash_iso_amended.1 Instances.cleanTreeA Instances.cleanTreeB (by decide),
   hash_iso_amended.2.1 Instances.cleanTreeA Instances.cleanTreeB
     (by decide) (by decide) rfl⟩

end HashIso

/-! ### C4: the top-down matcher -/

section TopDown

open Tree Gumtree Collections

theorem subtree_eq (i : Nat) (t : String) (l : Option String) (cs : List Node) :
    Node.subtree (.node i t l cs) = .node i t l cs :: subtreeList cs := by
  rw [Node.subtree]

theorem self_mem_subtree (n : Node) : n ∈ n.subtree := by
  cases n with
  | node i t l cs => rw [subtree_eq]; exact List.mem_cons_self _ _

theorem mem_subtree_iff {x : Node} {i : Nat} {t : String} {l : Option String}
    {cs : List Node} :
    x ∈ Node.subtree (.node i t l cs) ↔ x = .node i t l cs ∨ x ∈ subtreeList cs := by
  rw [subtree_eq]; exact List.mem_cons

theorem mem_subtreeList_iff {x : Node} :
    ∀ {cs : List Node}, x ∈ subtreeList cs ↔ ∃ c ∈ cs, x ∈ c.subtree := by
  intro cs
  induction cs with
  | nil => simp [Tree.subtreeList]
  | cons c cs ih =>
    rw [Tree.subtreeList, List.mem_append, ih]
    simp

theorem size_subtree_facts :
    ∀ k : Nat,
      (∀ n : Node, n.size ≤ k → ∀ x ∈ n.subtree, x = n ∨ x.size < n.size) ∧
      (∀ cs : List Node, sizeList cs ≤ k →
        ∀ x ∈ subtreeList cs, x.size ≤ sizeList cs) := by
  intro k
  induction k using Nat.strong_induction_on with
  | _ k ih =>
    have hnode : ∀ n : Node, n.size ≤ k →
        ∀ x ∈ n.subtree, x = n ∨ x.size < n.size := by
      intro n hsz x hx
      cases n with
      | node i t l cs =>
        rcases mem_subtree_iff.1 hx with rfl | hx
        · exact Or.inl rfl
        · rw [Node.size] at hsz ⊢
          have hlt : sizeList cs < k := by omega
          have := (ih (sizeList cs) hlt).2 cs le_rfl x hx
          exact Or.inr (by omega)
    refine ⟨hnode, ?_⟩
    intro cs hsz x hx
    induction cs with
    | nil => simp [Tree.subtreeList] at hx
    | cons c cs ihcs =>
      rw [Tree.sizeList] at hsz ⊢
      rw [Tree.subtreeList, List.mem_append] at hx
      rcases hx with hx | hx
      · have hc : c.size ≤ k := by have := node_size_pos c; omega
        rcases hnode c hc x hx with rfl | hlt
        · omega
        · omega
      · have hcs : sizeList cs ≤ k := by have := node_size_pos c; omega
        have := ihcs hcs hx
        omega

theorem mem_subtree_size {x n : Node} (h : x ∈ n.subtree) :
    x = n ∨ x.size < n.size :=
  (size_subtree_facts n.size).1 n le_rfl x h

theorem subtree_antisymm {x n : Node} (h1 : x ∈ n.subtree)
    (h2 : n ∈ x.subtree) : x = n := by
  rcases mem_subtree_size h1 with rfl | hlt1
  · rfl
  · rcases mem_subtree_size h2 with rfl | hlt2
    · rfl
    · omega

theorem subtree_trans_facts :
    ∀ k : Nat,
      (∀ n : Node, n.size ≤ k →
        ∀ t ∈ n.subtree, ∀ x ∈ t.subtree, x ∈ n.subtree) ∧
      (∀ cs : List Node, sizeList cs ≤ k →
        ∀ t ∈ subtreeList cs, ∀ x ∈ t.subtree, x ∈ subtreeList cs) := by
  intro k
  induction k using Nat.strong_induction_on with
  | _ k ih =>
    have hnode : ∀ n : Node, n.size ≤ k →
        ∀ t ∈ n.subtree, ∀ x ∈ t.subtree, x ∈ n.subtree := by
      intro n hsz t ht x hx
      cases n with
      | node i t0 l cs =>
        rcases mem_subtree_iff.1 ht with rfl | ht
        · exact hx
        · rw [Node.size] at hsz
          have hlt : sizeList cs < k := by omega
          exact mem_subtree_iff.2
            (Or.inr ((ih (sizeList cs) hlt).2 cs le_rfl t ht x hx))
    refine ⟨hnode, ?_⟩
    intro cs hsz t ht x hx
    induction cs with
    | nil => simp [Tree.subtreeList] at ht
    | cons c cs ihcs =>
      rw [Tree.sizeList] at hsz
      rw [Tree.subtreeList, List.mem_append] at ht ⊢
      rcases ht with ht | ht
      · have hc : c.size ≤ k := by have := node_size_pos c; omega
        exact Or.inl (hnode c hc t ht x hx)
      · have hcs : sizeList cs ≤ k := by have := node_size_pos c; omega
        exact Or.inr (ihcs hcs ht)

theorem mem_subtree_trans {x t n : Node} (h1 : x ∈ t.subtree)
    (h2 : t ∈ n.subtree) : x ∈ n.subtree :=
  (subtree_trans_facts n.size).1 n le_rfl t h2 x h1

theorem child_mem_subtree {c n : Node} (h : c ∈ n.children) : c ∈ n.subtree := by
  cases n with
  | node i t l cs =>
    exact mem_subtree_iff.2
      (Or.inr (mem_subtreeList_iff.2 ⟨c, h, self_mem_subtree c⟩))

theorem encL_len_facts :
    ∀ k : Nat,
      (∀ n : Node, n.size ≤ k →
        ∀ x ∈ n.subtree, x = n ∨ (encL x).length < (encL n).length) ∧
      (∀ cs : List Node, sizeList cs ≤ k →
        ∀ x ∈ subtreeList cs, (encL x).length ≤ (encLList cs).length) := by
  intro k
  induction k using Nat.strong_induction_on with
  | _ k ih =>
    have hnode : ∀ n : Node, n.size ≤ k →
        ∀ x ∈ n.subtree, x = n ∨ (encL x).length < (encL n).length := by
      intro n hsz x hx
      cases n with
      | node i t l cs =>
        rcases mem_subtree_iff.1 hx with rfl | hx
        · exact Or.inl rfl
        · rw [Node.size] at hsz
          have hlt : sizeList cs < k := by omega
          have hle := (ih (sizeList cs) hlt).2 cs le_rfl x hx
          refine Or.inr ?_
          rw [encL_node]
          simp only [List.length_cons, List.length_append]
          omega
    refine ⟨hnode, ?_⟩
    intro cs hsz x hx
    induction cs with
    | nil => simp [Tree.subtreeList] at hx
    | cons c cs ihcs =>
      rw [Tree.sizeList] at hsz
      rw [Tree.subtreeList, List.mem_append] at hx
      rw [encLList_cons, List.length_append]
      rcases hx with hx | hx
      · have hc : c.size ≤ k := by have := node_size_pos c; omega
        rcases hnode c hc x hx with rfl | hlt
        · omega
        · omega
      · have hcs : sizeList cs ≤ k := by have := node_size_pos c; omega
        have := ihcs hcs hx
        omega

theorem hashStr_ne_of_proper_subtree {x n : Node} (h : x ∈ n.subtree)
    (hne : x ≠ n) : Node.hashStr x ≠ Node.hashStr n := by
  rcases (encL_len_facts n.size).1 n le_rfl x h with rfl | hlt
  · exact absurd rfl hne
  · intro hcon
    have : (encL x).length = (encL n).length := by
      show (Node.hashStr x).data.length = (Node.hashStr n).data.length
      rw [hcon]
    omega

theorem subtree_length_facts :
    ∀ k : Nat,
      (∀ n : Node, n.size ≤ k → n.subtree.length = n.size) ∧
      (∀ cs : List Node, sizeList cs ≤ k →
        (subtreeList cs).length = sizeList cs) := by
  intro k
  induction k using Nat.strong_induction_on with
  | _ k ih =>
    have hnode : ∀ n : Node, n.size ≤ k → n.subtree.length = n.size := by
      intro n hsz
      cases n with
      | node i t l cs =>
        rw [Node.size] at hsz
        have hlt : sizeList cs < k := by omega
        rw [subtree_eq, List.length_cons, Node.size,
          (ih (sizeList cs) hlt).2 cs le_rfl]
    refine ⟨hnode, ?_⟩
    intro cs hsz
    induction cs with
    | nil => rfl
    | cons c cs ihcs =>
      rw [Tree.sizeList] at hsz
      rw [Tree.subtreeList, List.length_append, Tree.sizeList]
      have hc : c.size ≤ k := by have := node_size_pos c; omega
      have hcs : sizeList cs ≤ k := by have := node_size_pos c; omega
      rw [hnode c hc, ihcs hcs]

theorem subtree_length (n : Node) : n.subtree.length = n.size :=
  (subtree_length_facts n.size).1 n le_rfl

theorem isoTL_facts :
    ∀ k : Nat,
      (∀ a b : Node, a.size ≤ k → isoTL a b = true →
        isoR a b = true ∧ a.size = b.size) ∧
      (∀ as bs : List Node, sizeList as ≤ k → isoTLList as bs = true →
        isoRList as bs = true ∧ sizeList as = sizeList bs) := by
  intro k
  induction k using Nat.strong_induction_on with
  | _ k ih =>
    have hnode : ∀ a b : Node, a.size ≤ k → isoTL a b = true →
        isoR a b = true ∧ a.size = b.size := by
      intro a b hsz hi
      cases a with
      | node i1 t1 l1 cs1 =>
        cases b with
        | node i2 t2 l2 cs2 =>
          rw [Tree.isoTL] at hi
          simp only [Bool.and_eq_true, decide_eq_true_eq] at hi
          obtain ⟨⟨ht, hl⟩, hcs⟩ := hi
          rw [Node.size] at hsz
          have hlt : sizeList cs1 < k := by omega
          obtain ⟨hr, hs⟩ := (ih (sizeList cs1) hlt).2 cs1 cs2 le_rfl hcs
          constructor
          · rw [Tree.isoR]
            simp only [Bool.and_eq_true, decide_eq_true_eq]
            exact ⟨⟨ht, by rw [hl]⟩, hr⟩
          · rw [Node.size, Node.size, hs]
    refine ⟨hnode, ?_⟩
    intro as bs hsz hi
    induction as generalizing bs with
    | nil =>
      cases bs with
      | nil => exact ⟨rfl, rfl⟩
      | cons b bs2 => exact absurd hi (by rw [show isoTLList [] (b :: bs2) = false from rfl]; simp)
    | cons a as2 iha =>
      cases bs with
      | nil => exact absurd hi (by rw [show isoTLList (a :: as2) [] = false from rfl]; simp)
      | cons b bs2 =>
        rw [Tree.isoTLList, Bool.and_eq_true] at hi
        rw [Tree.sizeList] at hsz
        obtain ⟨hr1, hs1⟩ := hnode a b (by omega) hi.1
        have hsz2 : sizeList as2 ≤ k := by have := node_size_pos a; omega
        obtain ⟨hr2, hs2⟩ := iha bs2 hsz2 hi.2
        refine ⟨?_, ?_⟩
        · rw [Tree.isoRList, Bool.and_eq_true]; exact ⟨hr1, hr2⟩
        · rw [Tree.sizeList, Tree.sizeList, hs1, hs2]

theorem mem_zip_left {γ δ : Type} {x : γ} :
    ∀ {as : List γ} {bs : List δ}, as.length = bs.length → x ∈ as →
      ∃ y, (x, y) ∈ as.zip bs := by
  intro as
  induction as with
  | nil => intro bs _ hx; simp at hx
  | cons a as2 ih =>
    intro bs hlen hx
    cases bs with
    | nil => simp at hlen
    | cons b bs2 =>
      rcases List.mem_cons.1 hx with rfl | hx
      · exact ⟨b, List.mem_cons_self _ _⟩
      · have hlen2 : as2.length = bs2.length := by
          simpa using hlen
        obtain ⟨y, hy⟩ := ih hlen2 hx
        exact ⟨y, List.mem_cons_of_mem _ hy⟩

theorem popMany_mem {β : Type} (aEq aLe : β → β → Bool)
    {l : List (Int × β)} :
    ∀ {po : List β} {rest : List (Int × β)},
      Collections.popMany aEq aLe l = .ok (po, rest) →
      (∀ t ∈ po, ∃ kk, (kk, t) ∈ l) ∧ ∀ e ∈ rest, e ∈ l := by
  intro po rest h
  cases l with
  | nil => simp [Collections.popMany] at h
  | cons e tail =>
    rw [Collections.popMany] at h
    rw [popManyLoop_eq] at h
    simp only [Except.ok.injEq, Prod.mk.injEq] at h
    obtain ⟨hpo, hrest⟩ := h
    constructor
    · intro t ht
      rw [← hpo] at ht
      obtain ⟨⟨ek, ev⟩, hentry, hsnd⟩ := List.mem_map.1 ht
      have hev : ev = t := hsnd
      subst hev
      refine ⟨ek, ?_⟩
      rcases List.mem_cons.1 hentry with heq | hentry
      · rw [heq]; exact List.mem_cons_self _ _
      · exact List.mem_cons_of_mem _ ((List.takeWhile_sublist _).subset hentry)
    · intro x hx
      rw [← hrest] at hx
      exact List.mem_cons_of_mem _ ((List.dropWhile_sublist _).subset hx)

theorem openAll_mem {β : Type} (key : β → Int) (aEq aLe : β → β → Bool) :
    ∀ (objs : List β) (l : List (Int × β)) (e : Int × β),
      e ∈ Collections.openAll key aEq aLe l objs → e ∈ l ∨ e.2 ∈ objs := by
  intro objs
  induction objs with
  | nil => intro l e h; exact Or.inl h
  | cons x xs ih =>
    intro l e h
    rw [Collections.openAll, List.foldl_cons] at h
    rcases ih (Collections.push key aEq aLe l x) e h with h2 | h2
    · rw [Collections.push] at h2
      rcases mem_heapInsert.1 h2 with rfl | h3
      · exact Or.inr (List.mem_cons_self _ _)
      · exact Or.inl h3
    · exact Or.inr (List.mem_cons_of_mem _ h2)

theorem openChildren_mem {l : List (Int × Node)} {popped : List Node}
    {e : Int × Node} (h : e ∈ Gumtree.openChildren l popped) :
    e ∈ l ∨ ∃ t ∈ popped, e.2 ∈ t.children := by
  induction popped generalizing l with
  | nil => exact Or.inl h
  | cons t ts ih =>
    rw [Gumtree.openChildren, List.foldl_cons] at h
    rcases ih (l := Collections.openAll priority nodeEq nodeLe l t.children)
        (by rw [Gumtree.openChildren]; exact h) with h2 | h2
    · rcases openAll_mem priority nodeEq nodeLe t.children l e h2 with h3 | h3
      · exact Or.inl h3
      · exact Or.inr ⟨t, List.mem_cons_self _ _, h3⟩
    · obtain ⟨t2, ht2, he⟩ := h2
      exact Or.inr ⟨t2, List.mem_cons_of_mem _ ht2, he⟩

theorem bidictSet_mem {m m' : Gumtree.Mapping} {k v : Node}
    (h : Gumtree.bidictSet m k v = .ok m') {xy : Node × Node} (hxy : xy ∈ m') :
    xy ∈ m ∨ xy = (k, v) := by
  rw [Gumtree.bidictSet] at h
  by_cases hc : m.any (fun p => nodeEq p.2 v && !nodeEq p.1 k) = true
  · rw [if_pos hc] at h
    exact Except.noConfusion h
  · rw [if_neg hc] at h
    simp only [Except.ok.injEq] at h
    rw [← h] at hxy
    rcases List.mem_append.1 hxy with h2 | h2
    · exact Or.inl (List.mem_of_mem_filter h2)
    · exact Or.inr (List.mem_singleton.1 h2)

theorem foldlM_mapping_mem {ρ : Type} (C : ρ → (Node × Node) → Prop)
    (g : Gumtree.Mapping → ρ → Except String Gumtree.Mapping)
    (hg : ∀ m p m', g m p = .ok m' → ∀ xy ∈ m', xy ∈ m ∨ C p xy) :
    ∀ (ps : List ρ) (m m' : Gumtree.Mapping),
      ps.foldlM g m = .ok m' → ∀ xy ∈ m', xy ∈ m ∨ ∃ p ∈ ps, C p xy := by
  intro ps
  induction ps with
  | nil =>
    intro m m' h xy hxy
    simp only [List.foldlM_nil] at h
    cases h
    exact Or.inl hxy
  | cons p ps2 ih =>
    intro m m' h xy hxy
    rw [List.foldlM_cons] at h
    rcases hstep : g m p with e | m1
    · rw [hstep] at h
      exact Except.noConfusion h
    · rw [hstep] at h
      have h4 : ps2.foldlM g m1 = .ok m' := h
      rcases ih m1 m' h4 xy hxy with h2 | h2
      · rcases hg m p m1 hstep xy h2 with h3 | h3
        · exact Or.inl h3
        · exact Or.inr ⟨p, List.mem_cons_self _ _, h3⟩
      · obtain ⟨q, hq, hc⟩ := h2
        exact Or.inr ⟨q, List.mem_cons_of_mem _ hq, hc⟩

theorem foldlM_pair_mem {ρ : Type} (C : ρ → (Node × Node) → Prop)
    (g : List (Node × Node) × Gumtree.Mapping → ρ →
      Except String (List (Node × Node) × Gumtree.Mapping))
    (hg : ∀ acc p acc', g acc p = .ok acc' →
      ∀ xy ∈ acc'.2, xy ∈ acc.2 ∨ C p xy) :
    ∀ (ps : List ρ) (acc acc' : List (Node × Node) × Gumtree.Mapping),
      ps.foldlM g acc = .ok acc' →
      ∀ xy ∈ acc'.2, xy ∈ acc.2 ∨ ∃ p ∈ ps, C p xy := by
  intro ps
  induction ps with
  | nil =>
    intro acc acc' h xy hxy
    simp only [List.foldlM_nil] at h
    cases h
    exact Or.inl hxy
  | cons p ps2 ih =>
    intro acc acc' h xy hxy
    rw [List.foldlM_cons] at h
    rcases hstep : g acc p with e | acc1
    · rw [hstep] at h
      exact Except.noConfusion h
    · rw [hstep] at h
      have h4 : ps2.foldlM g acc1 = .ok acc' := h
      rcases ih acc1 acc' h4 xy hxy with h2 | h2
      · rcases hg acc p acc1 hstep xy h2 with h3 | h3
        · exact Or.inl h3
        · exact Or.inr ⟨p, List.mem_cons_self _ _, h3⟩
      · obtain ⟨q, hq, hc⟩ := h2
        exact Or.inr ⟨q, List.mem_cons_of_mem _ hq, hc⟩

theorem bidict_foldlM_mem :
    ∀ (ps : List (Node × Node)) (m m' : Gumtree.Mapping),
      ps.foldlM (fun m p => Gumtree.bidictSet m p.1 p.2) m = .ok m' →
      ∀ xy ∈ m', xy ∈ m ∨ xy ∈ ps := by
  intro ps m m' h xy hxy
  have := foldlM_mapping_mem (fun p xy => xy = p)
    (fun m p => Gumtree.bidictSet m p.1 p.2) ?_ ps m m' h xy hxy
  · rcases this with h2 | ⟨p, hp, rfl⟩
    · exact Or.inl h2
    · exact Or.inr hp
  · intro m0 p m1 hstep xy2 hxy2
    rcases bidictSet_mem hstep hxy2 with h3 | h3
    · exact Or.inl h3
    · exact Or.inr (by rw [h3])

theorem zipInsert_mem {m m' : Gumtree.Mapping} {t1 t2 : Node}
    (h : Gumtree.zipInsert m t1 t2 = .ok m') {xy : Node × Node}
    (hxy : xy ∈ m') : xy ∈ m ∨ xy ∈ t1.subtree.zip t2.subtree := by
  exact bidict_foldlM_mem _ m m' h xy hxy

theorem processPairs_mem {b o : Node} {h1 h2 : List Node}
    {a : List (Node × Node)} {m : Gumtree.Mapping}
    {a' : List (Node × Node)} {m' : Gumtree.Mapping}
    (h : Gumtree.processPairs b o h1 h2 a m = .ok (a', m'))
    {xy : Node × Node} (hxy : xy ∈ m') :
    xy ∈ m ∨ ∃ t1 t2 : Node, t1 ∈ h1 ∧ t2 ∈ h2 ∧
      Gumtree.isomorphic t1 t2 = true ∧ xy ∈ t1.subtree.zip t2.subtree := by
  rw [Gumtree.processPairs] at h
  have hmain := foldlM_pair_mem
    (fun p xy => xy ∈ p.1.subtree.zip p.2.subtree) _ ?_ _ (a, m) (a', m') h xy hxy
  · rcases hmain with h2 | ⟨p, hp, hzip⟩
    · exact Or.inl h2
    · have hmem := List.mem_filter.1 hp
      have hprod := List.pair_mem_product.1 hmem.1
      exact Or.inr ⟨p.1, p.2, hprod.1, hprod.2, by simpa using hmem.2, hzip⟩
  · intro acc p acc' hstep xy2 hxy2
    obtain ⟨aa, mm⟩ := acc
    by_cases hamb : Gumtree.existsAmbiguous b o p.1 p.2 = true
    · simp only [hamb, if_pos] at hstep
      have hstep2 : (Except.ok (aa ++ [p], mm) : Except String _) =
          Except.ok acc' := hstep
      simp only [Except.ok.injEq] at hstep2
      rw [← hstep2] at hxy2
      exact Or.inl hxy2
    · simp only [hamb, if_neg, Bool.not_eq_true] at hstep
      rcases hzi : Gumtree.zipInsert mm p.1 p.2 with e | mz
      · rw [hzi] at hstep
        exact Except.noConfusion hstep
      · rw [hzi] at hstep
        have hstep2 : (Except.ok (aa, mz) : Except String _) = Except.ok acc' :=
          hstep
        simp only [Except.ok.injEq] at hstep2
        rw [← hstep2] at hxy2
        rcases zipInsert_mem hzi hxy2 with h3 | h3
        · exact Or.inl h3
        · exact Or.inr h3

theorem except_bind_ok {ε σ τ : Type} {x : Except ε σ} {f : σ → Except ε τ}
    {v : τ} (h : x >>= f = .ok v) : ∃ u, x = .ok u ∧ f u = .ok v := by
  cases x with
  | error e =>
    have h2 : (Except.error e : Except ε τ) = .ok v := h
    exact Except.noConfusion h2
  | ok u => exact ⟨u, rfl, h⟩

theorem isomorphic_eq {t1 t2 : Node} :
    Gumtree.isomorphic t1 t2 = true ↔ Node.hashStr t1 = Node.hashStr t2 := by
  simp [Gumtree.isomorphic, Node.hash]

theorem subtree_cons (n : Node) :
    n.subtree = n :: subtreeList n.children := by
  cases n with
  | node i t l cs => rw [subtree_eq]; rfl

theorem candidatePhase_mem {b o : Node} {a : List (Node × Node)}
    {m m' : Gumtree.Mapping} (h : Gumtree.candidatePhase b o a m = .ok m')
    {xy : Node × Node} (hxy : xy ∈ m') :
    xy ∈ m ∨ Gumtree.isomorphic xy.1 xy.2 = true := by
  rw [Gumtree.candidatePhase] at h
  obtain ⟨keyed, _, h2⟩ := except_bind_ok h
  have hginner : ∀ (m2 : Gumtree.Mapping) (p : Node × Node) (m3 : Gumtree.Mapping),
      (if (Gumtree.isomorphic p.1 p.2 && !(keyMem m2 p.1) && !(valMem m2 p.2)) = true
          then bidictSet m2 p.1 p.2 else pure m2) = .ok m3 →
      ∀ xy3 ∈ m3, xy3 ∈ m2 ∨ Gumtree.isomorphic xy3.1 xy3.2 = true := by
    intro m2 p m3 hstep2 xy3 hxy3
    by_cases hg : (Gumtree.isomorphic p.1 p.2 && !(keyMem m2 p.1) && !(valMem m2 p.2)) = true
    · rw [if_pos hg] at hstep2
      rcases bidictSet_mem hstep2 hxy3 with h5 | h5
      · exact Or.inl h5
      · refine Or.inr ?_
        rw [h5]
        simp only [Bool.and_eq_true] at hg
        exact hg.1.1
    · rw [if_neg hg] at hstep2
      have hstep3 : (Except.ok m2 : Except String Gumtree.Mapping) = .ok m3 := hstep2
      simp only [Except.ok.injEq] at hstep3
      rw [← hstep3] at hxy3
      exact Or.inl hxy3
  have hgouter : ∀ (m0 : Gumtree.Mapping) (kp : ℚ × Node × Node) (m1 : Gumtree.Mapping),
      (do
        let (t1, t2) := kp.2
        if !(keyMem m0 t1) && !(valMem m0 t2) then
          (t1.subtree.product t2.subtree).foldlM (fun m (p : Node × Node) =>
            if Gumtree.isomorphic p.1 p.2 && !(keyMem m p.1) && !(valMem m p.2) then
              bidictSet m p.1 p.2
            else
              pure m) m0
        else
          pure m0) = .ok m1 →
      ∀ xy2 ∈ m1, xy2 ∈ m0 ∨ Gumtree.isomorphic xy2.1 xy2.2 = true := by
    intro m0 kp m1 hstep xy2 hxy2
    obtain ⟨kk, t1, t2⟩ := kp
    have hstep2 : (if (!(keyMem m0 t1) && !(valMem m0 t2)) = true then
        (t1.subtree.product t2.subtree).foldlM (fun m p =>
          if Gumtree.isomorphic p.1 p.2 && !(keyMem m p.1) && !(valMem m p.2) then
            bidictSet m p.1 p.2
          else
            pure m) m0
      else pure m0) = .ok m1 := hstep
    by_cases hc : (!(keyMem m0 t1) && !(valMem m0 t2)) = true
    · rw [if_pos hc] at hstep2
      have h4 := foldlM_mapping_mem
        (fun p (xy : Node × Node) => Gumtree.isomorphic xy.1 xy.2 = true)
        _ hginner _ m0 m1 hstep2 xy2 hxy2
      rcases h4 with h5 | ⟨_, _, h5⟩
      · exact Or.inl h5
      · exact Or.inr h5
    · rw [if_neg hc] at hstep2
      have hstep3 : (Except.ok m0 : Except String Gumtree.Mapping) = .ok m1 := hstep2
      simp only [Except.ok.injEq] at hstep3
      rw [← hstep3] at hxy2
      exact Or.inl hxy2
  have hmain := foldlM_mapping_mem
    (fun kp (xy : Node × Node) => Gumtree.isomorphic xy.1 xy.2 = true)
    _ hgouter _ m m' h2 xy hxy
  rcases hmain with h3 | ⟨_, _, h3⟩
  · exact Or.inl h3
  · exact Or.inr h3

theorem reopenUnmapped_mem {h : List Node} {a : List (Node × Node)}
    {proj : Node × Node → Node} {m : Gumtree.Mapping}
    {mem : Gumtree.Mapping → Node → Bool} :
    ∀ {l : List (Int × Node)} {e : Int × Node},
      e ∈ Gumtree.reopenUnmapped l h a proj m mem →
      e ∈ l ∨ ∃ t ∈ h, e.2 ∈ t.children := by
  induction h with
  | nil => intro l e hmem; exact Or.inl hmem
  | cons t ts ih =>
    intro l e hmem
    rw [Gumtree.reopenUnmapped, List.foldl_cons] at hmem
    have hmem2 : e ∈ Gumtree.reopenUnmapped
        (if !(a.any fun x => nodeEq (proj x) t) && !(mem m t) then
          Collections.openAll priority nodeEq nodeLe l t.children
        else l) ts a proj m mem := by
      rw [Gumtree.reopenUnmapped]; exact hmem
    rcases ih hmem2 with h2 | h2
    · by_cases hc : (!(a.any fun x => nodeEq (proj x) t) && !(mem m t)) = true
      · rw [if_pos hc] at h2
        rcases openAll_mem priority nodeEq nodeLe t.children l e h2 with h3 | h3
        · exact Or.inl h3
        · exact Or.inr ⟨t, List.mem_cons_self _ _, h3⟩
      · rw [if_neg hc] at h2
        exact Or.inl h2
    · obtain ⟨t2, ht2, he⟩ := h2
      exact Or.inr ⟨t2, List.mem_cons_of_mem _ ht2, he⟩

theorem not_mem_subtreeList_self (b : Node) : b ∉ subtreeList b.children := by
  intro hmem
  cases b with
  | node i t l cs =>
    have := (size_subtree_facts (sizeList cs)).2 cs le_rfl _ hmem
    rw [Node.size] at this
    omega

/-- A pair `(b, v)` produced by zipping the traversals of two isomorphic
subtrees, where `t1` lies inside `b`'s tree, forces `t1 = b` and `v` to be
the isomorphic partner. -/
theorem zip_root_pair {b v t1 t2 : Node} (ht1 : t1 ∈ b.subtree)
    (hiso : Gumtree.isomorphic t1 t2 = true)
    (hzip : (b, v) ∈ t1.subtree.zip t2.subtree) :
    Node.hashStr b = Node.hashStr v := by
  have hb1 : b ∈ t1.subtree := (List.of_mem_zip hzip).1
  have ht1b : t1 = b := subtree_antisymm ht1 hb1
  subst ht1b
  rw [subtree_cons t1, subtree_cons t2] at hzip
  rw [List.zip_cons_cons] at hzip
  rcases List.mem_cons.1 hzip with h2 | h2
  · have hv : v = t2 := by
      have := congrArg Prod.snd h2
      simpa using this
    subst hv
    exact isomorphic_eq.1 hiso
  · have := (List.of_mem_zip h2).1
    exact absurd this (not_mem_subtreeList_self t1)

theorem loopBody_inv {b o : Node} {st st' : Gumtree.State}
    (hl1 : ∀ e ∈ st.l1, e.2 ∈ b.subtree)
    (hm : ∀ v : Node, (b, v) ∈ st.m → Node.hashStr b = Node.hashStr v)
    (h : Gumtree.loopBody b o st = .ok st') :
    (∀ e ∈ st'.l1, e.2 ∈ b.subtree) ∧
    (∀ v : Node, (b, v) ∈ st'.m → Node.hashStr b = Node.hashStr v) := by
  obtain ⟨l1, l2, a, m⟩ := st
  cases l1 with
  | nil =>
    cases l2 with
    | nil => exact Except.noConfusion h
    | cons e2 l2t => exact Except.noConfusion h
  | cons e1 l1t =>
    cases l2 with
    | nil => exact Except.noConfusion h
    | cons e2 l2t =>
      rw [Gumtree.loopBody] at h
      simp only at h hl1 hm
      by_cases hgt : e2.2.height < e1.2.height
      · rw [if_pos (by simpa using hgt)] at h
        obtain ⟨pr, hpm, h⟩ := except_bind_ok h
        obtain ⟨popped, l1'⟩ := pr
        have h2 : (Except.ok
            (⟨Gumtree.openChildren l1' popped, e2 :: l2t, a, m⟩ :
              Gumtree.State) : Except String _) = .ok st' := h
        simp only [Except.ok.injEq] at h2
        subst h2
        refine ⟨?_, hm⟩
        intro e he
        rcases openChildren_mem he with h3 | ⟨t, ht, hc⟩
        · exact hl1 e ((popMany_mem _ _ hpm).2 e h3)
        · obtain ⟨kk, hkk⟩ := (popMany_mem _ _ hpm).1 t ht
          exact mem_subtree_trans (child_mem_subtree hc) (hl1 (kk, t) hkk)
      · rw [if_neg (by simpa using hgt)] at h
        by_cases hlt : e1.2.height < e2.2.height
        · rw [if_pos (by simpa using hlt)] at h
          obtain ⟨pr, hpm, h⟩ := except_bind_ok h
          obtain ⟨popped, l2'⟩ := pr
          have h2 : (Except.ok
              (⟨e1 :: l1t, Gumtree.openChildren l2' popped, a, m⟩ :
                Gumtree.State) : Except String _) = .ok st' := h
          simp only [Except.ok.injEq] at h2
          subst h2
          exact ⟨hl1, hm⟩
        · rw [if_neg (by simpa using hlt)] at h
          obtain ⟨pr1, hpm1, h⟩ := except_bind_ok h
          obtain ⟨h1, l1'⟩ := pr1
          obtain ⟨pr2, hpm2, h⟩ := except_bind_ok h
          obtain ⟨h2l, l2'⟩ := pr2
          obtain ⟨pr3, hpp, h⟩ := except_bind_ok h
          obtain ⟨a', m'⟩ := pr3
          have h3 : (Except.ok
              (⟨Gumtree.reopenUnmapped l1' h1 a' Prod.fst m' keyMem,
                Gumtree.reopenUnmapped l2' h2l a' Prod.snd m' valMem,
                a', m'⟩ : Gumtree.State) : Except String _) = .ok st' := h
          simp only [Except.ok.injEq] at h3
          subst h3
          constructor
          · intro e he
            rcases reopenUnmapped_mem he with h4 | ⟨t, ht, hc⟩
            · exact hl1 e ((popMany_mem _ _ hpm1).2 e h4)
            · obtain ⟨kk, hkk⟩ := (popMany_mem _ _ hpm1).1 t ht
              exact mem_subtree_trans (child_mem_subtree hc) (hl1 (kk, t) hkk)
          · intro v hv
            have hpp2 : Gumtree.processPairs b o h1 h2l a m = .ok (a', m') := hpp
            rcases processPairs_mem hpp2 hv with h4 | ⟨t1, t2, ht1, _, hiso, hzip⟩
            · exact hm v h4
            · obtain ⟨kk, hkk⟩ := (popMany_mem _ _ hpm1).1 t1 ht1
              exact zip_root_pair (hl1 (kk, t1) hkk) hiso hzip

theorem topDownLoop_inv {mh : Nat} {b o : Node} :
    ∀ (fuel : Nat) (st st' : Gumtree.State),
      (∀ e ∈ st.l1, e.2 ∈ b.subtree) →
      (∀ v : Node, (b, v) ∈ st.m → Node.hashStr b = Node.hashStr v) →
      Gumtree.topDownLoop mh b o fuel st = .ok st' →
      (∀ e ∈ st'.l1, e.2 ∈ b.subtree) ∧
      (∀ v : Node, (b, v) ∈ st'.m → Node.hashStr b = Node.hashStr v) := by
  intro fuel
  induction fuel with
  | zero => intro st st' _ _ h; exact Except.noConfusion h
  | succ n ih =>
    intro st st' hl1 hm h
    rw [Gumtree.topDownLoop] at h
    by_cases hc : Gumtree.loopCond mh st = true
    · rw [if_pos hc] at h
      obtain ⟨st1, hbody, hrest⟩ := except_bind_ok h
      obtain ⟨hl1', hm'⟩ := loopBody_inv hl1 hm hbody
      exact ih st1 st' hl1' hm' hrest
    · rw [if_neg hc] at h
      simp only [Except.ok.injEq] at h
      subst h
      exact ⟨hl1, hm⟩

/-- The root pair only ever enters the mapping hash-equal: every `(b, v)`
pair of any successful `top_down` run has `hash b = hash v`. -/
theorem topDown_root_pair_iso {b o : Node} {m : Gumtree.Mapping}
    (h : Gumtree.topDown 2 b o = .ok m) {v : Node} (hbv : (b, v) ∈ m) :
    Node.hashStr b = Node.hashStr v := by
  rw [Gumtree.topDown] at h
  obtain ⟨st, hloop, hcand⟩ := except_bind_ok h
  have hinit1 : ∀ e ∈ (⟨Collections.push priority nodeEq nodeLe [] b,
      Collections.push priority nodeEq nodeLe [] o, [], []⟩ :
        Gumtree.State).l1, e.2 ∈ b.subtree := by
    intro e he
    have he2 : e ∈ [(priority b, b)] := he
    rw [List.mem_singleton.1 he2]
    exact self_mem_subtree b
  have hinit2 : ∀ v : Node, ((b, v) ∈ (⟨Collections.push priority nodeEq nodeLe [] b,
      Collections.push priority nodeEq nodeLe [] o, [], []⟩ :
        Gumtree.State).m) → Node.hashStr b = Node.hashStr v := by
    intro v hv
    have hv2 : (b, v) ∈ ([] : Gumtree.Mapping) := hv
    simp at hv2
  obtain ⟨_, hm⟩ := topDownLoop_inv _ _ _ hinit1 hinit2 hloop
  rcases candidatePhase_mem hcand hbv with h2 | h2
  · exact hm v h2
  · exact isomorphic_eq.1 h2


theorem push_nil_eq (b : Node) :
    Collections.push priority nodeEq nodeLe [] b = [(priority b, b)] := rfl

theorem zip_map_fst_sublist {γ δ : Type} :
    ∀ (as : List γ) (bs : List δ), List.Sublist ((as.zip bs).map Prod.fst) as
  | [], _ => by simp
  | _ :: _, [] => by simp
  | a :: as, b :: bs => by
    rw [List.zip_cons_cons, List.map_cons]
    exact List.Sublist.cons₂ a (zip_map_fst_sublist as bs)

theorem zip_map_snd_sublist {γ δ : Type} :
    ∀ (as : List γ) (bs : List δ), List.Sublist ((as.zip bs).map Prod.snd) bs
  | [], _ => by simp
  | _ :: _, [] => by simp
  | a :: as, b :: bs => by
    rw [List.zip_cons_cons, List.map_cons]
    exact List.Sublist.cons₂ b (zip_map_snd_sublist as bs)

/-- Inserting a list of pairs with pairwise-distinct key identities and
pairwise-distinct value identities (all fresh for the accumulator) into a
bidict never raises and appends the pairs in order. -/
theorem bidict_foldlM_ok :
    ∀ (ps m0 : Gumtree.Mapping),
      (∀ p ∈ ps, ∀ q ∈ m0, nodeEq q.1 p.1 = false ∧ nodeEq q.2 p.2 = false) →
      (ps.map (fun x => x.1.pid)).Nodup →
      (ps.map (fun x => x.2.pid)).Nodup →
      List.foldlM (fun m p => Gumtree.bidictSet m p.1 p.2) m0 ps =
        .ok (m0 ++ ps) := by
  intro ps
  induction ps with
  | nil => intro m0 _ _ _; simp [List.foldlM_nil]; rfl
  | cons p ps ih =>
    intro m0 hfresh hk hv
    rw [List.foldlM_cons]
    have hany : m0.any (fun q => nodeEq q.2 p.2 && !nodeEq q.1 p.1) = false := by
      rw [List.any_eq_false]
      intro q hq
      rw [(hfresh p (List.mem_cons_self _ _) q hq).2]
      simp
    have hfil : m0.filter (fun q => !nodeEq q.1 p.1) = m0 := by
      rw [List.filter_eq_self]
      intro q hq
      rw [(hfresh p (List.mem_cons_self _ _) q hq).1]
      rfl
    have hbid : Gumtree.bidictSet m0 p.1 p.2 = .ok (m0 ++ [p]) := by
      rw [Gumtree.bidictSet, if_neg (by rw [hany]; simp), hfil]
    rw [hbid]
    rw [List.map_cons, List.nodup_cons] at hk hv
    have hstep : List.foldlM (fun m p => Gumtree.bidictSet m p.1 p.2)
        (m0 ++ [p]) ps = .ok ((m0 ++ [p]) ++ ps) := by
      apply ih
      · intro p2 hp2 q hq
        rcases List.mem_append.1 hq with hq | hq
        · exact hfresh p2 (List.mem_cons_of_mem _ hp2) q hq
        · rw [List.mem_singleton.1 hq]
          constructor
          · have hne : p.1.pid ≠ p2.1.pid := by
              intro hcon
              exact hk.1 (by rw [hcon]; exact List.mem_map_of_mem _ hp2)
            simp [nodeEq, hne]
          · have hne : p.2.pid ≠ p2.2.pid := by
              intro hcon
              exact hv.1 (by rw [hcon]; exact List.mem_map_of_mem _ hp2)
            simp [nodeEq, hne]
      · exact hk.2
      · exact hv.2
    have hgoal : List.foldlM (fun m p => Gumtree.bidictSet m p.1 p.2)
        (m0 ++ [p]) ps = .ok (m0 ++ p :: ps) := by
      rw [hstep]; simp
    exact hgoal

/-- Zipping the traversals of two trees with distinct node identities into
an empty bidict succeeds and produces exactly the zipped pair list. -/
theorem zipInsert_nil_ok {b o : Node}
    (hnb : (b.subtree.map Node.pid).Nodup)
    (hno : (o.subtree.map Node.pid).Nodup) :
    Gumtree.zipInsert [] b o = .ok (b.subtree.zip o.subtree) := by
  rw [Gumtree.zipInsert]
  have hk : ((b.subtree.zip o.subtree).map (fun x => x.1.pid)).Nodup := by
    have hsub := (zip_map_fst_sublist b.subtree o.subtree).map Node.pid
    have hnd := hsub.nodup hnb
    rw [List.map_map] at hnd
    exact hnd
  have hv : ((b.subtree.zip o.subtree).map (fun x => x.2.pid)).Nodup := by
    have hsub := (zip_map_snd_sublist b.subtree o.subtree).map Node.pid
    have hnd := hsub.nodup hno
    rw [List.map_map] at hnd
    exact hnd
  have h := bidict_foldlM_ok (b.subtree.zip o.subtree) [] (by simp) hk hv
  simpa using h

/-- When the two whole trees are hash-equal, the root pair is never
ambiguous: no proper subtree on either side can share the roots' hash. -/
theorem existsAmbiguous_root_false {b o : Node}
    (hh : Node.hashStr b = Node.hashStr o) :
    Gumtree.existsAmbiguous b o b o = false := by
  rw [Gumtree.existsAmbiguous]
  have h1 : o.subtree.any
      (fun tx => Gumtree.isomorphic b tx && !nodeEq tx o) = false := by
    rw [List.any_eq_false]
    intro tx htx
    by_cases he : nodeEq tx o = true
    · rw [he]; simp
    · have hne : tx ≠ o := by
        intro hcon; rw [hcon] at he; exact he (by simp [nodeEq])
      have hxo : Node.hashStr tx ≠ Node.hashStr o :=
        hashStr_ne_of_proper_subtree htx hne
      have hiso : Gumtree.isomorphic b tx = false := by
        rw [Bool.eq_false_iff]
        intro hcon
        exact hxo ((isomorphic_eq.1 hcon).symm.trans hh)
      rw [hiso]; simp
  have h2 : b.subtree.any
      (fun tx => Gumtree.isomorphic tx o && !nodeEq tx b) = false := by
    rw [List.any_eq_false]
    intro tx htx
    by_cases he : nodeEq tx b = true
    · rw [he]; simp
    · have hne : tx ≠ b := by
        intro hcon; rw [hcon] at he; exact he (by simp [nodeEq])
      have hxb : Node.hashStr tx ≠ Node.hashStr b :=
        hashStr_ne_of_proper_subtree htx hne
      have hiso : Gumtree.isomorphic tx o = false := by
        rw [Bool.eq_false_iff]
        intro hcon
        exact hxb ((isomorphic_eq.1 hcon).trans hh.symm)
      rw [hiso]; simp
  rw [h1, h2]
  rfl

theorem keyMem_zip_head {b o : Node} :
    keyMem (b.subtree.zip o.subtree) b = true := by
  rw [Gumtree.keyMem, List.any_eq_true]
  refine ⟨(b, o), ?_, by simp [nodeEq]⟩
  rw [subtree_cons b, subtree_cons o, List.zip_cons_cons]
  exact List.mem_cons_self _ _

theorem valMem_zip_head {b o : Node} :
    valMem (b.subtree.zip o.subtree) o = true := by
  rw [Gumtree.valMem, List.any_eq_true]
  refine ⟨(b, o), ?_, by simp [nodeEq]⟩
  rw [subtree_cons b, subtree_cons o, List.zip_cons_cons]
  exact List.mem_cons_self _ _

/-- The first loop iteration on two equal-height roots reduces to
processing the single root pair and reopening whatever stays unmapped. -/
theorem loopBody_root_shape (b o : Node) (hht : b.height = o.height) :
    Gumtree.loopBody b o ⟨[(priority b, b)], [(priority o, o)], [], []⟩ =
      (Gumtree.processPairs b o [b] [o] [] [] >>= fun pr =>
        pure ⟨Gumtree.reopenUnmapped [] [b] pr.1 Prod.fst pr.2 keyMem,
          Gumtree.reopenUnmapped [] [o] pr.1 Prod.snd pr.2 valMem,
          pr.1, pr.2⟩) := by
  have hgt : ¬(b.height > o.height) := by omega
  have hlt : ¬(b.height < o.height) := by omega
  simp only [Gumtree.loopBody]
  rw [if_neg hgt, if_neg hlt]
  rfl

/-- Processing the sole pair of hash-equal, unambiguous roots maps the
whole zipped traversal and leaves the candidate list empty. -/
theorem processPairs_root_eval (b o : Node)
    (hiso : Gumtree.isomorphic b o = true)
    (hamb : Gumtree.existsAmbiguous b o b o = false)
    {z : Gumtree.Mapping} (hzip : Gumtree.zipInsert [] b o = .ok z) :
    Gumtree.processPairs b o [b] [o] [] [] = .ok ([], z) := by
  rw [Gumtree.processPairs]
  have hprod : ([b].product [o]).filter (fun p => Gumtree.isomorphic p.1 p.2) =
      [(b, o)] := by
    show List.filter _ [(b, o)] = [(b, o)]
    rw [List.filter_cons]
    simp [hiso]
  rw [hprod]
  have h1 : ¬(Gumtree.existsAmbiguous b o b o = true) := by rw [hamb]; simp
  simp only [List.foldlM_cons, List.foldlM_nil]
  rw [if_neg h1, hzip]
  rfl

/-- Resolving an empty candidate list leaves the mapping untouched. -/
theorem candidatePhase_nil (b o : Node) (m : Gumtree.Mapping) :
    Gumtree.candidatePhase b o [] m = .ok m := by
  rw [Gumtree.candidatePhase]
  show List.foldlM _ m (List.mergeSort [] _) =
    (Except.ok m : Except String Gumtree.Mapping)
  rw [List.mergeSort_nil]
  rfl

/-- A run of the matching loop that stops after exactly one iteration. -/
theorem topDownLoop_two_step {mh : Nat} {b o : Node} {n : Nat}
    {st0 st1 : Gumtree.State}
    (hc0 : Gumtree.loopCond mh st0 = true)
    (hb : Gumtree.loopBody b o st0 = .ok st1)
    (hc1 : Gumtree.loopCond mh st1 = false) :
    Gumtree.topDownLoop mh b o (n + 2) st0 = .ok st1 := by
  have h1 : Gumtree.topDownLoop mh b o (n + 2) st0 =
      (if Gumtree.loopCond mh st0 = true then
        Gumtree.loopBody b o st0 >>= Gumtree.topDownLoop mh b o (n + 1)
      else .ok st0) := rfl
  rw [h1, if_pos hc0, hb]
  have h2 : (Except.ok st1 : Except String Gumtree.State) >>=
      Gumtree.topDownLoop mh b o (n + 1) =
      Gumtree.topDownLoop mh b o (n + 1) st1 := rfl
  rw [h2]
  have h3 : Gumtree.topDownLoop mh b o (n + 1) st1 =
      (if Gumtree.loopCond mh st1 = true then
        Gumtree.loopBody b o st1 >>= Gumtree.topDownLoop mh b o n
      else .ok st1) := rfl
  rw [h3, if_neg (by rw [hc1]; simp)]

/-- A run of the matching loop whose very first condition already fails. -/
theorem topDownLoop_stop {mh : Nat} {b o : Node} {n : Nat}
    {st0 : Gumtree.State}
    (hc0 : Gumtree.loopCond mh st0 = false) :
    Gumtree.topDownLoop mh b o (n + 2) st0 = .ok st0 := by
  have h1 : Gumtree.topDownLoop mh b o (n + 2) st0 =
      (if Gumtree.loopCond mh st0 = true then
        Gumtree.loopBody b o st0 >>= Gumtree.topDownLoop mh b o (n + 1)
      else .ok st0) := rfl
  rw [h1, if_neg (by rw [hc0]; simp)]

theorem loopCond_root_true {b o : Node} (hht : b.height = o.height)
    (hmin : 2 ≤ b.height) :
    Gumtree.loopCond 2 ⟨[(priority b, b)], [(priority o, o)], [], []⟩ =
      true := by
  show decide (2 ≤ min b.height o.height) = true
  rw [← hht, min_self]
  simpa using hmin

/-- Full first-round evaluation: on hash-equal trees of equal height at
least `min_height = 2` with globally distinct node identities, `top_down`
returns exactly the zip of the two preorder traversals. -/
theorem topDown_two_of_hash_eq {b o : Node}
    (hh : Node.hashStr b = Node.hashStr o)
    (hht : b.height = o.height)
    (hmin : 2 ≤ b.height)
    (hnb : (b.subtree.map Node.pid).Nodup)
    (hno : (o.subtree.map Node.pid).Nodup) :
    Gumtree.topDown 2 b o = .ok (b.subtree.zip o.subtree) := by
  have hzip := zipInsert_nil_ok hnb hno
  have hpp := processPairs_root_eval b o (isomorphic_eq.2 hh)
    (existsAmbiguous_root_false hh) hzip
  have hro1 : Gumtree.reopenUnmapped [] [b] []
      Prod.fst (b.subtree.zip o.subtree) keyMem = [] := by
    rw [Gumtree.reopenUnmapped, List.foldl_cons, List.foldl_nil]
    show (if (!(([] : List (Node × Node)).any fun x => nodeEq x.1 b) &&
        !(keyMem (b.subtree.zip o.subtree) b)) = true then
      Collections.openAll priority nodeEq nodeLe [] b.children else []) = []
    rw [keyMem_zip_head]
    rfl
  have hro2 : Gumtree.reopenUnmapped [] [o] []
      Prod.snd (b.subtree.zip o.subtree) valMem = [] := by
    rw [Gumtree.reopenUnmapped, List.foldl_cons, List.foldl_nil]
    show (if (!(([] : List (Node × Node)).any fun x => nodeEq x.2 o) &&
        !(valMem (b.subtree.zip o.subtree) o)) = true then
      Collections.openAll priority nodeEq nodeLe [] o.children else []) = []
    rw [valMem_zip_head]
    rfl
  have hbody : Gumtree.loopBody b o
      ⟨[(priority b, b)], [(priority o, o)], [], []⟩ =
      .ok ⟨[], [], [], b.subtree.zip o.subtree⟩ := by
    rw [loopBody_root_shape b o hht, hpp]
    show (pure ⟨Gumtree.reopenUnmapped [] [b] []
        Prod.fst (b.subtree.zip o.subtree) keyMem,
      Gumtree.reopenUnmapped [] [o] []
        Prod.snd (b.subtree.zip o.subtree) valMem,
      [], b.subtree.zip o.subtree⟩ : Except String Gumtree.State) = _
    rw [hro1, hro2]
    rfl
  have hloop := topDownLoop_two_step (n := b.size + o.size)
    (loopCond_root_true hht hmin) hbody rfl
  rw [Gumtree.topDown, push_nil_eq, push_nil_eq, hloop]
  exact candidatePhase_nil b o (b.subtree.zip o.subtree)

/-- `(type, label)`-isomorphic trees have equal heights. -/
theorem isoTL_height_facts :
    ∀ k : Nat,
      (∀ a b : Node, a.size ≤ k → isoTL a b = true → a.height = b.height) ∧
      (∀ as bs : List Node, sizeList as ≤ k → isoTLList as bs = true →
        heightList as = heightList bs) := by
  intro k
  induction k using Nat.strong_induction_on with
  | _ k ih =>
    have hnode : ∀ a b : Node, a.size ≤ k → isoTL a b = true →
        a.height = b.height := by
      intro a b hsz hi
      cases a with
      | node i1 t1 l1 cs1 =>
        cases b with
        | node i2 t2 l2 cs2 =>
          rw [Tree.isoTL] at hi
          simp only [Bool.and_eq_true, decide_eq_true_eq] at hi
          rw [Node.size] at hsz
          have hlt : sizeList cs1 < k := by omega
          have hh := (ih (sizeList cs1) hlt).2 cs1 cs2 le_rfl hi.2
          rw [Node.height, Node.height, hh]
    refine ⟨hnode, ?_⟩
    intro as bs hsz hi
    induction as generalizing bs with
    | nil =>
      cases bs with
      | nil => rfl
      | cons b bs2 =>
        exact absurd hi
          (by rw [show isoTLList [] (b :: bs2) = false from rfl]; simp)
    | cons a as2 iha =>
      cases bs with
      | nil =>
        exact absurd hi
          (by rw [show isoTLList (a :: as2) [] = false from rfl]; simp)
      | cons b bs2 =>
        rw [Tree.isoTLList, Bool.and_eq_true] at hi
        rw [Tree.sizeList] at hsz
        have h1 := hnode a b (by have := node_size_pos a; omega) hi.1
        have h2 := iha bs2 (by have := node_size_pos a; omega) hi.2
        rw [Tree.heightList, Tree.heightList, h1, h2]

/-- A first-round stop: when the loop condition already fails on the two
pushed roots, `top_down` returns the empty mapping. -/
theorem topDown_stop_eval {b o : Node}
    (hc : Gumtree.loopCond 2
      ⟨[(priority b, b)], [(priority o, o)], [], []⟩ = false) :
    Gumtree.topDown 2 b o = .ok [] := by
  rw [Gumtree.topDown, push_nil_eq, push_nil_eq,
    topDownLoop_stop (n := b.size + o.size) hc]
  exact candidatePhase_nil b o []

/-- C4 (amended): for two trees of equal height at least `min_height = 2`
whose node identities are pairwise distinct on each side, the mapping
produced by `top_down` (default `min_height`) contains the root pair iff
the two whole trees are hash-equal; and diffing such a tree against a
`(type, label)`-isomorphic copy (a deep copy with fresh identities) maps
every one of its `N` nodes. -/
theorem top_down_root_pair_iff_amended {b o : Node}
    (hht : b.height = o.height) (hmin : 2 ≤ b.height)
    (hnb : (b.subtree.map Node.pid).Nodup)
    (hno : (o.subtree.map Node.pid).Nodup) :
    ((∃ m, Gumtree.topDown 2 b o = .ok m ∧ (b, o) ∈ m) ↔
      Node.hashStr b = Node.hashStr o) ∧
    (Tree.isoTL b o = true →
      ∃ m, Gumtree.topDown 2 b o = .ok m ∧ (b, o) ∈ m ∧
        m.length = b.size) := by
  have hmem : ∀ {z : Node}, (b, z) ∈ b.subtree.zip z.subtree := by
    intro z
    rw [subtree_cons b, subtree_cons z, List.zip_cons_cons]
    exact List.mem_cons_self _ _
  constructor
  · constructor
    · rintro ⟨m, hok, hbo⟩
      exact topDown_root_pair_iso hok hbo
    · intro hh
      exact ⟨_, topDown_two_of_hash_eq hh hht hmin hnb hno, hmem⟩
  · intro hiso
    have hr := (isoTL_facts b.size).1 b o le_rfl hiso
    have hh : Node.hashStr b = Node.hashStr o :=
      (isoR_hashStr b.size).1 b o le_rfl hr.1
    refine ⟨_, topDown_two_of_hash_eq hh hht hmin hnb hno, hmem, ?_⟩
    rw [List.length_zip, subtree_length, subtree_length, ← hr.2, min_self]

/-- Witness for C4 (amended) at a height-2 tree and its deep copy. -/
theorem top_down_root_pair_iff_amended_witness :
    ((∃ m, Gumtree.topDown 2 Instances.copyBase Instances.copyOther =
        .ok m ∧ (Instances.copyBase, Instances.copyOther) ∈ m) ↔
      Node.hashStr Instances.copyBase = Node.hashStr Instances.copyOther) ∧
    (Tree.isoTL Instances.copyBase Instances.copyOther = true →
      ∃ m, Gumtree.topDown 2 Instances.copyBase Instances.copyOther =
        .ok m ∧ (Instances.copyBase, Instances.copyOther) ∈ m ∧
        m.length = Instances.copyBase.size) :=
  top_down_root_pair_iff_amended (by decide) (by decide) (by decide)
    (by decide)

/-- C4 counterexample to the original claim: the two hash-equal (hence
isomorphic in the code's sense) single-node trees `leafBase` and
`leafOther` produce the empty mapping — the root pair is missing although
the whole trees are isomorphic, because `min_height = 2` stops the loop
before any pair is examined.  Moreover hash-equal trees need not even
agree in height (`tripleTree`/`foldedTree`), so no amendment by height
alone can restore the unrestricted claim. -/
theorem top_down_root_pair_counterexample :
    Node.hashStr Instances.leafBase = Node.hashStr Instances.leafOther ∧
    Gumtree.topDown 2 Instances.leafBase Instances.leafOther = .ok [] ∧
    Node.hashStr Instances.tripleTree = Node.hashStr Instances.foldedTree ∧
    Instances.tripleTree.height = 3 ∧ Instances.foldedTree.height = 2 :=
  ⟨rfl, topDown_stop_eval rfl, rfl, rfl, rfl⟩

end TopDown

end CheckMerge
